import Mathlib

/-!
Typed accessors over the process environment (package `env`).

A shallow embedding of `env.go`.  The process environment is an explicit value
passed to and returned from every operation, Go's `error` results are
`Option Error` (`none` is `nil`), and the standard library calls of the package
(`os.LookupEnv`, `os.Setenv`, `strings.ContainsRune`, `strings.ToLower`,
`strconv.Atoi`, `strconv.Itoa`, `strconv.ParseFloat`, `strconv.FormatFloat`)
are modelled after their Go implementation on a 64-bit Unix host.  The two
floating-point accessors take the parser and the formatter as parameters, which
`strconv.ParseFloat32` and `strconv.FormatFloat32` instantiate.

Go strings are Lean strings, that is UTF-8 text: `len` is the length in bytes,
and the byte loops of the library run over the code points, a code point above
U+007F standing for its bytes, which are all above 0x7F.  The `int` type is
`ℤ`, with the 64-bit wrap-around written out where the library computes in
`int64` or `uint64`.  A `float32` is its bit pattern, and the conversions
between floats and decimal text are computed in exact arithmetic.
-/

/-! ## Errors -/

/-- Error numbers of the `syscall` package that the environment calls return. -/
inductive syscall.Errno where
  | EINVAL
  deriving DecidableEq, Repr

/-- Values of Go's `error` interface that the package can return: the two
package-level sentinels and the `*os.SyscallError` that `os.Setenv` builds. -/
inductive Env.Error where
  | ErrInvalidKey
  | ErrInvalidValue
  | SyscallError (call : String) (err : syscall.Errno)
  deriving DecidableEq, Repr

/-! ## The process environment -/

/-- The process environment: key/value bindings, the first binding of a key
being the one in force (as in `syscall.copyenv`). -/
abbrev Environ := List (String × String)

/-- Go's `len(s)`: the number of bytes of the string. -/
def len (s : String) : Nat := s.utf8ByteSize

/-- The binding of `key` in force, if any (the `env` map of package `syscall`). -/
def Environ.find : Environ → String → Option String
  | [], _ => none
  | (k, v) :: rest, key => if k = key then some v else Environ.find rest key

/-- The assignment `envs[i] = kv` or `envs = append(envs, kv)` of
`syscall.Setenv`: rebinds the binding in force or appends a new one. -/
def Environ.assign : Environ → String → String → Environ
  | [], key, value => [(key, value)]
  | (k, v) :: rest, key, value =>
    if k = key then (k, value) :: rest else (k, v) :: Environ.assign rest key value

/-- `os.LookupEnv`: the value and `ok = true` (here `some`), or `ok = false`
(here `none`).  The empty key is never found. -/
def os.LookupEnv (env : Environ) (key : String) : Option String :=
  if len key = 0 then none else env.find key

/-- `os.Setenv` on Unix: rejects with `EINVAL` an empty key, a key containing
`=` or a NUL byte, and a value containing a NUL byte; otherwise binds the key. -/
def os.Setenv (env : Environ) (key value : String) : Environ × Option Env.Error :=
  if len key = 0 then (env, some (Env.Error.SyscallError "setenv" syscall.Errno.EINVAL))
  else if key.data.any (fun c => c = '=' || c = Char.ofNat 0) then
    (env, some (Env.Error.SyscallError "setenv" syscall.Errno.EINVAL))
  else if value.data.any (fun c => c = Char.ofNat 0) then
    (env, some (Env.Error.SyscallError "setenv" syscall.Errno.EINVAL))
  else (env.assign key value, none)

/-! ## Strings -/

/-- `strings.IndexRune(s, r)` for a rune below `utf8.RuneSelf`: the index of
the first occurrence, or `-1`. -/
def strings.IndexRune : List Char → Char → Int
  | [], _ => -1
  | c :: cs, r =>
    if c = r then 0
    else
      let i := strings.IndexRune cs r
      if i < 0 then -1 else i + (c.utf8Size : Int)

/-- `strings.ContainsRune(s, r)`: `IndexRune(s, r) >= 0`. -/
def strings.ContainsRune (s : String) (r : Char) : Bool := decide (strings.IndexRune s.data r ≥ 0)

/-- The test `'A' <= c && c <= 'Z'` of `strings.ToLower`. -/
def strings.isUpperASCII (c : Char) : Bool := decide (65 ≤ c.toNat ∧ c.toNat ≤ 90)

/-- The step `c += 'a' - 'A'` applied to the upper-case ASCII letters. -/
def strings.lowerASCII (c : Char) : Char :=
  if strings.isUpperASCII c then Char.ofNat (c.toNat + 32) else c

/-- `unicode.ToLower(r)`: ASCII runes are lowered arithmetically, every other
rune goes through the case table `caseTable` (`unicode.CaseRanges`), which is
a parameter of the model. -/
def unicode.ToLower (caseTable : Char → Char) (r : Char) : Char :=
  if r.toNat ≤ 127 then strings.lowerASCII r else caseTable r

/-- `strings.ToLower(s)`: strings of ASCII bytes take the byte loop (and are
returned as they are when they hold no upper-case letter), all others are
mapped rune by rune through `unicode.ToLower`. -/
def strings.ToLower (caseTable : Char → Char) (s : String) : String :=
  if s.data.all (fun c => decide (c.toNat < 128)) then
    if s.data.any strings.isUpperASCII then String.mk (s.data.map strings.lowerASCII) else s
  else String.mk (s.data.map (unicode.ToLower caseTable))

/-! ## Integers: `strconv.Atoi` and `strconv.Itoa` -/

/-- The errors of package `strconv`. -/
inductive strconv.NumError where
  | ErrSyntax
  | ErrRange
  deriving DecidableEq, Repr

/-- Conversion to `int64`, wrapping around. -/
def wrapInt64 (x : Int) : Int := (x + 2 ^ 63) % 2 ^ 64 - 2 ^ 63

/-- Conversion to `uint64`, wrapping around. -/
def wrapUint64 (x : Int) : Nat := (x % 2 ^ 64).toNat

/-- The digit loop of the fast path of `strconv.Atoi`: `ch -= '0'` on a byte
wraps around, so every byte outside `'0'..'9'` (and with it every rune above
U+007F, whose bytes are all above 0x7F) ends in a syntax error. -/
def strconv.atoiFastLoop : List Char → Int → Int × Option strconv.NumError
  | [], n => (n, none)
  | c :: cs, n =>
    if c.toNat < 48 ∨ c.toNat - 48 > 9 then (0, some strconv.NumError.ErrSyntax)
    else strconv.atoiFastLoop cs (wrapInt64 (n * 10 + ((c.toNat - 48 : Nat) : Int)))

/-- The loop of `strconv.ParseUint(s, 10, 64)` over the bytes of `s`, with `n`
the `uint64` accumulated so far; `cutoff = maxUint64/10 + 1` and
`maxVal = 1<<64 - 1`. -/
def strconv.parseUintLoop : List Char → Nat → Nat × Option strconv.NumError
  | [], n => (n, none)
  | c :: cs, n =>
    let lower := c.toNat ||| 32
    if 48 ≤ c.toNat ∧ c.toNat ≤ 57 then
      let d := c.toNat - 48
      if d ≥ 10 then (0, some strconv.NumError.ErrSyntax)
      else if n ≥ (2 ^ 64 - 1) / 10 + 1 then (2 ^ 64 - 1, some strconv.NumError.ErrRange)
      else
        let n10 := (n * 10) % 2 ^ 64
        let n1 := (n10 + d) % 2 ^ 64
        if n1 < n10 ∨ n1 > 2 ^ 64 - 1 then (2 ^ 64 - 1, some strconv.NumError.ErrRange)
        else strconv.parseUintLoop cs n1
    else if 97 ≤ lower ∧ lower ≤ 122 then
      let d := lower - 97 + 10
      if d ≥ 10 then (0, some strconv.NumError.ErrSyntax)
      else if n ≥ (2 ^ 64 - 1) / 10 + 1 then (2 ^ 64 - 1, some strconv.NumError.ErrRange)
      else
        let n10 := (n * 10) % 2 ^ 64
        let n1 := (n10 + d) % 2 ^ 64
        if n1 < n10 ∨ n1 > 2 ^ 64 - 1 then (2 ^ 64 - 1, some strconv.NumError.ErrRange)
        else strconv.parseUintLoop cs n1
    else (0, some strconv.NumError.ErrSyntax)

/-- `strconv.ParseUint(s, 10, 64)`. -/
def strconv.ParseUint (s : List Char) : Nat × Option strconv.NumError :=
  if s = [] then (0, some strconv.NumError.ErrSyntax) else strconv.parseUintLoop s 0

/-- The second half of `strconv.ParseInt(s, 10, 0)` with `IntSize = 64`
("convert unsigned and check range"): the magnitude `s` is parsed as a
`uint64` and checked against `cutoff = 1<<63`; a range error carries the
clamped value. -/
def strconv.parseIntConvert (neg : Bool) (s : List Char) : Int × Option strconv.NumError :=
  let r := strconv.ParseUint s
  if r.2 = some strconv.NumError.ErrSyntax then (0, r.2)
  else
    let un := r.1
    if neg = false ∧ un ≥ 2 ^ 63 then (2 ^ 63 - 1, some strconv.NumError.ErrRange)
    else if neg = true ∧ un > 2 ^ 63 then (-(2 ^ 63), some strconv.NumError.ErrRange)
    else
      let n := wrapInt64 (un : Int)
      (if neg = true then wrapInt64 (-n) else n, none)

/-- `strconv.ParseInt(s, 10, 0)`: the empty string is a syntax error, a leading
sign is picked off, and the rest is converted. -/
def strconv.ParseInt (s : List Char) : Int × Option strconv.NumError :=
  match s with
  | [] => (0, some strconv.NumError.ErrSyntax)
  | c :: cs =>
    if c = '+' then strconv.parseIntConvert false cs
    else if c = '-' then strconv.parseIntConvert true cs
    else strconv.parseIntConvert false (c :: cs)

/-- The fast path of `strconv.Atoi` after the sign: the digit loop from
`n := 0`, then `n = -n` when the first byte was `-`. -/
def strconv.atoiFastDigits (neg : Bool) (s : List Char) : Int × Option strconv.NumError :=
  let r := strconv.atoiFastLoop s 0
  if r.2 ≠ none then (0, r.2)
  else (if neg = true then wrapInt64 (-r.1) else r.1, none)

/-- `strconv.Atoi(s)` with `intSize = 64`: strings of 1 to 18 bytes take the
fast path (a sign with nothing behind it is a syntax error), all others go
through `ParseInt`. -/
def strconv.Atoi (s : String) : Int × Option strconv.NumError :=
  if 0 < len s ∧ len s < 19 then
    match s.data with
    | [] => (0, some strconv.NumError.ErrSyntax)
    | c :: cs =>
      if c = '-' ∨ c = '+' then
        if cs.length < 1 then (0, some strconv.NumError.ErrSyntax)
        else strconv.atoiFastDigits (decide (c = '-')) cs
      else strconv.atoiFastDigits false (c :: cs)
  else strconv.ParseInt s.data

/-- The decimal digit `d` as a byte. -/
def strconv.digitChar (d : Nat) : Char := Char.ofNat (48 + d)

/-- The base-10 branch of `formatBits`: the digits of `u` are written from the
right in front of `acc`; a `uint64` has at most 20 of them. -/
def strconv.formatDecimal : Nat → Nat → List Char → List Char
  | 0, _, acc => acc
  | fuel + 1, u, acc =>
    if u < 10 then strconv.digitChar u :: acc
    else strconv.formatDecimal fuel (u / 10) (strconv.digitChar (u % 10) :: acc)

/-- `strconv.Itoa(i)`, that is `FormatInt(int64(i), 10)`: the magnitude is
taken in `uint64` arithmetic, formatted in base 10 and given a leading `-`
when `i` is negative. -/
def strconv.Itoa (i : Int) : String :=
  let u := wrapUint64 i
  let u := if i < 0 then wrapUint64 (-(u : Int)) else u
  let ds := strconv.formatDecimal 20 u []
  String.mk (if i < 0 then '-' :: ds else ds)

/-! ## The string getter -/

/-- `Str(key, fallback)`. -/
def Env.Str (env : Environ) (key : String) (fallback : String) : String :=
  match os.LookupEnv env key with
  | some val => val
  | none => fallback

/-! ## Setters -/

/-- `SetStr(key, value)`: the validation switch, then `os.Setenv`. -/
def Env.SetStr (env : Environ) (key value : String) : Environ × Option Env.Error :=
  if strings.ContainsRune key '"' then (env, some Env.Error.ErrInvalidKey)
  else if strings.ContainsRune value '"' then (env, some Env.Error.ErrInvalidValue)
  else if key = "" then (env, some Env.Error.ErrInvalidKey)
  else os.Setenv env key value

/-- `SetInt(key, value)`. -/
def Env.SetInt (env : Environ) (key : String) (value : ℤ) : Environ × Option Env.Error :=
  let i := strconv.Itoa value
  Env.SetStr env key i

/-- `SetBool(key, value)`. -/
def Env.SetBool (env : Environ) (key : String) (value : Bool) : Environ × Option Env.Error :=
  let bStr := match value with
    | true => "true"
    | false => "false"
  Env.SetStr env key bStr

/-- `SetFloat32(key, value, prec...)`.  `formatFloat v p` stands for
`strconv.FormatFloat(float64(v), 'f', p, 32)`; `prec` is the variadic
argument list. -/
def Env.SetFloat32 {F : Type} (formatFloat : F → ℤ → String)
    (env : Environ) (key : String) (value : F) (prec : List ℤ) : Environ × Option Env.Error :=
  let p : ℤ := if prec.length > 1 then prec.headD 0 else 2
  let fStr := formatFloat value p
  Env.SetStr env key fStr

/-! ## Typed getters -/

/-- `Int(key, fallback)`. -/
def Env.Int (env : Environ) (key : String) (fallback : ℤ) : ℤ :=
  let val := Env.Str env key ""
  if val = "" then fallback
  else
    let r := strconv.Atoi val
    if r.2 ≠ none then fallback else r.1

/-- `Bool(key, fallback)`; `caseTable` is the Unicode case table behind
`strings.ToLower`. -/
def Env.Bool (caseTable : Char → Char) (env : Environ) (key : String) (fallback : Bool) : Bool :=
  let val := Env.Str env key ""
  if val = "" then fallback
  else
    let low := strings.ToLower caseTable val
    if low = "true" then true
    else if low = "false" then false
    else fallback

/-- `Float32(key, fallback)`.  The 32-bit floats are a type parameter `F`, and
`parseFloat32 s` stands for `strconv.ParseFloat(s, 32)` followed by the
conversion `float32(f)`. -/
def Env.Float32 {F : Type} (parseFloat32 : String → F × Option strconv.NumError)
    (env : Environ) (key : String) (fallback : F) : F :=
  let val := Env.Str env key ""
  if val = "" then fallback
  else
    let r := parseFloat32 val
    if r.2 ≠ none then fallback else r.1

/-! ## Floating point: `float32`, `strconv.FormatFloat` and `strconv.ParseFloat` -/

/-- A Go `float32`, as its IEEE-754 bit pattern (`math.Float32bits`): one sign
bit, 8 exponent bits, 23 mantissa bits. -/
structure float32 where
  bits : ℕ
  deriving DecidableEq, Repr

/-- The sign bit, `bits>>31 != 0`. -/
def float32.neg (v : float32) : Bool := decide (v.bits / 2 ^ 31 % 2 = 1)

/-- The biased exponent, `bits>>23 & 0xFF`. -/
def float32.exp (v : float32) : ℕ := v.bits / 2 ^ 23 % 2 ^ 8

/-- The mantissa bits, `bits & (1<<23 - 1)`. -/
def float32.mant (v : float32) : ℕ := v.bits % 2 ^ 23

/-- The bit pattern of a sign, a biased exponent and mantissa bits (the `out:`
block of `decimal.floatBits`). -/
def float32.ofParts (neg : Bool) (exp mant : ℕ) : float32 :=
  ⟨(if neg = true then 2 ^ 31 else 0) + exp % 2 ^ 8 * 2 ^ 23 + mant % 2 ^ 23⟩

/-- The magnitude of a finite `float32` in units of `2^-149`: the mantissa of
a denormal, and the mantissa with its implicit top bit, shifted by the exponent,
otherwise (as `genericFtoa` decodes it). -/
def float32.units (v : float32) : ℕ :=
  if v.exp = 0 then v.mant else (2 ^ 23 + v.mant) * 2 ^ (v.exp - 1)

/-- The quotient `a / d` rounded to the nearest integer, halfway cases to the
even one (`shouldRoundUp` of the multiprecision `decimal`). -/
def strconv.roundHalfEven (a d : ℕ) : ℕ :=
  if 2 * (a % d) < d then a / d
  else if d < 2 * (a % d) then a / d + 1
  else if a / d % 2 = 0 then a / d else a / d + 1

/-- The `p` fraction digits of `%f`: the number `f` below `10^p` written with
leading zeros. -/
def strconv.fractionDigits : ℕ → ℕ → List Char
  | 0, _ => []
  | p + 1, f => strconv.fractionDigits p (f / 10) ++ [strconv.digitChar (f % 10)]

/-- `strconv.FormatFloat(float64(v), 'f', prec, 32)`.  `NaN` and the infinities
have fixed texts; a negative `prec` asks for the shortest digits that identify
`v`, a routine that is a parameter (`shortest`) of the model; otherwise the
exact value is rounded, halfway cases to even, to `prec` digits after the
decimal point and written as sign, integer digits, and `.` with the fraction
digits when `prec > 0` (`fmtF`). -/
def strconv.FormatFloat32 (shortest : float32 → String) (v : float32) (prec : ℤ) : String :=
  if v.exp = 255 then
    (if v.mant ≠ 0 then "NaN" else if v.neg = true then "-Inf" else "+Inf")
  else if prec < 0 then shortest v
  else
    let p := prec.toNat
    let n := strconv.roundHalfEven (v.units * 10 ^ p) (2 ^ 149)
    let sign := if v.neg = true then ['-'] else []
    let int := strconv.formatDecimal 40 (n / 10 ^ p) []
    let frac := if p > 0 then '.' :: strconv.fractionDigits p (n % 10 ^ p) else []
    String.mk (sign ++ int ++ frac)

/-- The state of the digit loop of `readFloat`: whether a point and a digit
were seen, the number `nd` of digits after the leading zeros, the position `dp`
of the decimal point and the mantissa (here with all its digits). -/
structure strconv.floatDigits where
  sawdot : Bool
  sawdigits : Bool
  nd : ℕ
  dp : ℤ
  mantissa : ℕ
  deriving DecidableEq, Repr

/-- The digit loop of `readFloat` in base 10, on digits and the decimal point;
`none` when the loop meets a second point or any other byte. -/
def strconv.readFloatLoop : List Char → strconv.floatDigits → Option strconv.floatDigits
  | [], st => some st
  | c :: cs, st =>
    if c = '.' then
      if st.sawdot = true then none
      else strconv.readFloatLoop cs { st with sawdot := true, dp := st.nd }
    else if 48 ≤ c.toNat ∧ c.toNat ≤ 57 then
      if c = '0' ∧ st.nd = 0 then
        strconv.readFloatLoop cs { st with sawdigits := true, dp := st.dp - 1 }
      else
        strconv.readFloatLoop cs
          { st with sawdigits := true, nd := st.nd + 1,
                    mantissa := st.mantissa * 10 + (c.toNat - 48) }
    else none

/-- The search of `decimal.floatBits` for the binary exponent: the least shift
`s`, starting from `s` and within `fuel` steps, that brings `a / (d * 2^s)`
below `2^24`. -/
def strconv.binaryShift (a d : ℕ) : ℕ → ℕ → ℕ
  | 0, s => s
  | fuel + 1, s => if a / (d * 2 ^ s) < 2 ^ 24 then s else strconv.binaryShift a d fuel (s + 1)

/-- The result of `decimal.floatBits` for `float32`: the `float32` nearest to
`n / 10^k`, halfway cases to the even mantissa, denormals included, and the
overflow flag, with which the result is an infinity. -/
def strconv.floatBits32 (neg : Bool) (n k : ℕ) : float32 × Bool :=
  let a := n * 2 ^ 149
  let d := 10 ^ k
  let s := strconv.binaryShift a d 254 0
  let m := strconv.roundHalfEven a (d * 2 ^ s)
  let e := if m < 2 ^ 23 then 0 else if m < 2 ^ 24 then s + 1 else s + 2
  let mant := if m < 2 ^ 24 then m else 0
  if e ≥ 255 then (float32.ofParts neg 255 0, true)
  else (float32.ofParts neg e mant, false)

/-- `strconv.ParseFloat(s, 32)` followed by the conversion `float32(f)`.  A
plain decimal numeral (an optional sign, then digits with at most one decimal
point) is read by the digit loop and rounded to the nearest `float32`, a range
error going with an overflow; on every other string (exponents, hexadecimal
mantissas, underscores, `Inf`, `NaN`, malformed input) the result is that of
the parameter `other`. -/
def strconv.ParseFloat32 (other : String → float32 × Option strconv.NumError) (s : String) :
    float32 × Option strconv.NumError :=
  match s.data with
  | [] => other s
  | c :: cs =>
    let neg := decide (c = '-')
    let body := if c = '+' ∨ c = '-' then cs else c :: cs
    match strconv.readFloatLoop body ⟨false, false, 0, 0, 0⟩ with
    | none => other s
    | some st =>
      if st.sawdigits = false then other s
      else
        let dp := if st.sawdot = true then st.dp else (st.nd : ℤ)
        let r := strconv.floatBits32 neg st.mantissa ((st.nd : ℤ) - dp).toNat
        (r.1, if r.2 = true then some strconv.NumError.ErrRange else none)

/-- The raw value of the case "out of range" of `TestFloat` in `env_test.go`. -/
def TestFloat.outOfRange : String :=
  "1.500000000000000000000000000000000000000000000000000000000000000000000000000000000000000000000000000000000000000050000000000000000000000000000000000000000000000000000000000000000000000000000000000000000000000000000000000000000000050000000000000000000000000000000000000000000000000000000000000000000000000000000000000000000000000000000000000000000000500000000000000000000000000000000000000000000000000000000000000000000000000000000000000000"

/-! ## Notions of the specification -/

/-- Two characters are the same letter up to case: they are equal, or one is
an upper-case letter `A`..`Z` and the other its lower-case form. -/
def sameLetter (a b : Char) : Bool :=
  decide (a = b) ||
  decide (65 ≤ a.toNat ∧ a.toNat ≤ 90 ∧ a.toNat + 32 = b.toNat) ||
  decide (65 ≤ b.toNat ∧ b.toNat ≤ 90 ∧ b.toNat + 32 = a.toNat)

/-- Two strings are equal ignoring letter case: same length, and the same
letter up to case at every position. -/
def equalsIgnoringCase : List Char → List Char → Bool
  | [], [] => true
  | a :: as, b :: bs => sameLetter a b && equalsIgnoringCase as bs
  | _, _ => false

/-- A decimal digit `0`..`9`. -/
def isDecimalDigit (c : Char) : Bool := decide (48 ≤ c.toNat ∧ c.toNat ≤ 57)

/-- The number a string of decimal digits denotes, read after the number `n`
denoted by the digits to its left. -/
def decimalValue : ℕ → List Char → ℕ
  | n, [] => n
  | n, c :: cs => decimalValue (n * 10 + (c.toNat - 48)) cs

/-- A base-10 numeral: one or more decimal digits. -/
def isNumeral (ds : List Char) : Bool := !ds.isEmpty && ds.all isDecimalDigit

/-- The integer that a base-10 signed numeral denotes: an optional sign `+` or
`-` followed by a numeral; `none` for every other string. -/
def denotedInteger (s : List Char) : Option ℤ :=
  match s with
  | [] => none
  | c :: cs =>
    if c = '-' then (if isNumeral cs then some (-(decimalValue 0 cs : ℤ)) else none)
    else if c = '+' then (if isNumeral cs then some (decimalValue 0 cs : ℤ) else none)
    else if isNumeral (c :: cs) then some (decimalValue 0 (c :: cs) : ℤ) else none

/-- The range of the platform `int` (64 bits). -/
def inIntRange (v : ℤ) : Bool := decide (-(2 ^ 63) ≤ v ∧ v ≤ 2 ^ 63 - 1)

/-- A valid base-10 signed integer: a base-10 signed numeral whose value is an
`int`; the result is the integer that the string denotes. -/
def validSignedInt (s : String) : Option ℤ :=
  match denotedInteger s.data with
  | some v => if inIntRange v then some v else none
  | none => none

/-- A numeral without leading zeros: it does not start with `0`, or it is `0`
itself. -/
def noLeadingZero (ds : List Char) : Bool := decide (ds.head? ≠ some '0' ∨ ds = ['0'])

/-- The base-10 decimal text of the integer `n`: the numeral of its magnitude
without leading zeros, with a leading `-` when `n` is negative. -/
def isDecimalTextOf (n : ℤ) (s : String) : Bool :=
  if n < 0 then
    match s.data with
    | [] => false
    | c :: ds => decide (c = '-') && isNumeral ds && noLeadingZero ds &&
        decide (decimalValue 0 ds = n.natAbs)
  else isNumeral s.data && noLeadingZero s.data && decide (decimalValue 0 s.data = n.natAbs)

/-- The rational number a finite `float32` stands for: its magnitude, in units
of `2^-149`, with its sign. -/
def float32.toRat (v : float32) : ℚ :=
  (if v.neg = true then -1 else 1) * ((v.units : ℚ) / 2 ^ 149)

/-- The `float32` `v` is finite and no finite `float32` is nearer to `q`. -/
def isNearestFloat32 (q : ℚ) (v : float32) : Prop :=
  v.exp ≠ 255 ∧ ∀ w : float32, w.exp ≠ 255 → |q - v.toRat| ≤ |q - w.toRat|

/-- A plain decimal numeral: an optional sign `+` or `-`, then decimal digits
with at most one decimal point among them and at least one digit.  The result
is the sign (`true` for `-`), the digits before the point and the digits after
it. -/
def decimalNumeral (s : List Char) : Option (Bool × List Char × List Char) :=
  match s with
  | [] => none
  | c :: cs =>
    let body := if c = '+' ∨ c = '-' then cs else c :: cs
    let int := body.takeWhile (fun x => decide (x ≠ '.'))
    let frac := (body.dropWhile (fun x => decide (x ≠ '.'))).drop 1
    if int.all isDecimalDigit = true ∧ frac.all isDecimalDigit = true ∧ int ++ frac ≠ [] then
      some (decide (c = '-'), int, frac)
    else none

/-- The exact value of a plain decimal numeral. -/
def numeralValue (neg : Bool) (int frac : List Char) : ℚ :=
  (if neg = true then -1 else 1) * ((decimalValue 0 (int ++ frac) : ℚ) / 10 ^ frac.length)

/-- The text `t` is the value of `v` rounded to two digits after the decimal
point: a `-` when `v` has the sign bit, a numeral without leading zeros, a
point and two digits, which denote a multiple of `1/100` at most `1/200` away
from the magnitude of `v`. -/
def isRoundedToHundredths (v : float32) (t : String) : Prop :=
  ∃ (int : List Char) (a b : Char),
    t.data = (if v.neg = true then ['-'] else []) ++ int ++ ['.', a, b] ∧
    isNumeral int = true ∧ noLeadingZero int = true ∧
    isDecimalDigit a = true ∧ isDecimalDigit b = true ∧
    abs ((decimalValue 0 (int ++ [a, b]) : ℚ) / 100 - abs v.toRat) ≤ 1 / 200

/-! ## Facts about strings and the environment -/

theorem utf8ByteSize_go_ge_length (cs : List Char) :
    cs.length ≤ String.utf8ByteSize.go cs := by
  induction cs with
  | nil => simp [String.utf8ByteSize.go]
  | cons c cs ih =>
    have hc := Char.utf8Size_pos c
    simp only [String.utf8ByteSize.go, List.length_cons]
    omega

theorem length_le_len (s : String) : s.data.length ≤ len s := by
  cases s with
  | mk cs => exact utf8ByteSize_go_ge_length cs

theorem len_eq_zero_iff (s : String) : len s = 0 ↔ s = "" := by
  constructor
  · intro h
    have hl := length_le_len s
    have h0 : s.data.length = 0 := by omega
    exact String.ext_iff.mpr (List.length_eq_zero.mp h0)
  · intro h
    subst h
    rfl

theorem toNat_ofNat_of_lt (n : ℕ) (h : n < 128) : (Char.ofNat n).toNat = n := by
  have hv : n.isValidChar := Or.inl (by omega)
  unfold Char.ofNat
  rw [dif_pos hv]
  simp only [Char.ofNatAux, Char.toNat]
  show (BitVec.ofNatLt n _).toNat = n
  simp

theorem indexRune_nonneg_iff (cs : List Char) (r : Char) :
    0 ≤ strings.IndexRune cs r ↔ r ∈ cs := by
  induction cs with
  | nil => simp [strings.IndexRune]
  | cons c cs ih =>
    by_cases hc : c = r
    · simp [strings.IndexRune, hc]
    · have hr : ¬ r = c := fun h => hc h.symm
      by_cases hi : strings.IndexRune cs r < 0
      · have hn : ¬ (0 ≤ strings.IndexRune cs r) := by omega
        simp only [strings.IndexRune, hc, if_false, hi, if_true, List.mem_cons, hr, false_or]
        rw [← ih]
        constructor
        · intro h; omega
        · intro h; exact absurd h hn
      · have hp : 0 ≤ strings.IndexRune cs r := by omega
        simp only [strings.IndexRune, hc, if_false, hi, List.mem_cons, hr, false_or]
        rw [← ih]
        constructor
        · intro _; exact hp
        · intro _; positivity

theorem containsRune_iff (s : String) (r : Char) :
    strings.ContainsRune s r = true ↔ r ∈ s.data := by
  simp [strings.ContainsRune, indexRune_nonneg_iff]

theorem find_assign_same (env : Environ) (key value : String) :
    (env.assign key value).find key = some value := by
  induction env with
  | nil => simp [Environ.assign, Environ.find]
  | cons b rest ih =>
    obtain ⟨k, v⟩ := b
    by_cases hk : k = key
    · simp [Environ.assign, Environ.find, hk]
    · simp [Environ.assign, Environ.find, hk, ih]

theorem find_assign_other (env : Environ) (key value other : String) (h : other ≠ key) :
    (env.assign key value).find other = env.find other := by
  induction env with
  | nil =>
    have h2 : ¬ key = other := fun e => h e.symm
    simp [Environ.assign, Environ.find, h2]
  | cons b rest ih =>
    obtain ⟨k, v⟩ := b
    by_cases hk : k = key
    · have h2 : ¬ key = other := fun e => h e.symm
      simp [Environ.assign, Environ.find, hk, h2]
    · by_cases ho : k = other
      · subst ho
        simp [Environ.assign, Environ.find, hk]
      · simp [Environ.assign, Environ.find, hk, ho, ih]

/-- `os.Setenv` either fails and returns the environment it was given, or
succeeds and returns the environment with the key rebound. -/
theorem setenv_cases (env : Environ) (key value : String) :
    (os.Setenv env key value = (env, some (Env.Error.SyscallError "setenv" syscall.Errno.EINVAL))
      ∧ (key = "" ∨ '=' ∈ key.data ∨ Char.ofNat 0 ∈ key.data ∨ Char.ofNat 0 ∈ value.data))
    ∨ (os.Setenv env key value = (env.assign key value, none)
      ∧ key ≠ "" ∧ '=' ∉ key.data ∧ Char.ofNat 0 ∉ key.data ∧ Char.ofNat 0 ∉ value.data) := by
  unfold os.Setenv
  by_cases h1 : len key = 0
  · left
    rw [if_pos h1]
    exact ⟨rfl, Or.inl ((len_eq_zero_iff key).mp h1)⟩
  · have hne : key ≠ "" := fun e => h1 ((len_eq_zero_iff key).mpr e)
    by_cases h2 : (key.data.any (fun c => c = '=' || c = Char.ofNat 0)) = true
    · left
      rw [if_neg h1, if_pos h2]
      refine ⟨rfl, ?_⟩
      rw [List.any_eq_true] at h2
      obtain ⟨c, hc, hcc⟩ := h2
      simp only [Bool.or_eq_true, decide_eq_true_eq] at hcc
      rcases hcc with e | e
      · right; left; exact e ▸ hc
      · right; right; left; exact e ▸ hc
    · have hk : '=' ∉ key.data ∧ Char.ofNat 0 ∉ key.data := by
        constructor
        · intro hm
          exact h2 (List.any_eq_true.mpr ⟨'=', hm, by simp⟩)
        · intro hm
          exact h2 (List.any_eq_true.mpr ⟨Char.ofNat 0, hm, by simp⟩)
      by_cases h3 : (value.data.any (fun c => c = Char.ofNat 0)) = true
      · left
        rw [if_neg h1, if_neg h2, if_pos h3]
        refine ⟨rfl, ?_⟩
        rw [List.any_eq_true] at h3
        obtain ⟨c, hc, hcc⟩ := h3
        simp only [decide_eq_true_eq] at hcc
        right; right; right; exact hcc ▸ hc
      · right
        rw [if_neg h1, if_neg h2, if_neg h3]
        refine ⟨rfl, hne, hk.1, hk.2, ?_⟩
        intro hm
        exact h3 (List.any_eq_true.mpr ⟨Char.ofNat 0, hm, by simp⟩)

/-- The switch of `SetStr`, case by case. -/
theorem setStr_cases (env : Environ) (key value : String) :
    Env.SetStr env key value =
      if '"' ∈ key.data then (env, some Env.Error.ErrInvalidKey)
      else if '"' ∈ value.data then (env, some Env.Error.ErrInvalidValue)
      else if key = "" then (env, some Env.Error.ErrInvalidKey)
      else os.Setenv env key value := by
  unfold Env.SetStr
  simp only [containsRune_iff]

/-- A failing `SetStr` returns the environment it was given. -/
theorem setStr_error_env (env : Environ) (key value : String)
    (h : (Env.SetStr env key value).2 ≠ none) : (Env.SetStr env key value).1 = env := by
  rw [setStr_cases] at h ⊢
  split_ifs at h ⊢ <;> try rfl
  rcases setenv_cases env key value with ⟨e, _⟩ | ⟨e, _⟩
  · rw [e]
  · rw [e] at h; exact absurd rfl h

/-- `SetStr` on a key and value that pass every check binds the key. -/
theorem setStr_success (env : Environ) (key value : String)
    (hk : key ≠ "") (hq : '"' ∉ key.data) (hv : '"' ∉ value.data)
    (he : '=' ∉ key.data) (hz : Char.ofNat 0 ∉ key.data) (hvz : Char.ofNat 0 ∉ value.data) :
    Env.SetStr env key value = (env.assign key value, none) := by
  rw [setStr_cases, if_neg hq, if_neg hv, if_neg hk]
  rcases setenv_cases env key value with ⟨_, h⟩ | ⟨e, _⟩
  · rcases h with h | h | h | h
    · exact absurd h hk
    · exact absurd h he
    · exact absurd h hz
    · exact absurd h hvz
  · exact e

theorem lookupEnv_assign_same (env : Environ) (key value : String) (hk : key ≠ "") :
    os.LookupEnv (env.assign key value) key = some value := by
  have h : ¬ len key = 0 := fun e => hk ((len_eq_zero_iff key).mp e)
  simp [os.LookupEnv, h, find_assign_same]

theorem lookupEnv_assign_other (env : Environ) (key value other : String) (h : other ≠ key) :
    os.LookupEnv (env.assign key value) other = os.LookupEnv env other := by
  unfold os.LookupEnv
  split_ifs
  · rfl
  · exact find_assign_other env key value other h

/-! ## The validation of `SetStr` and the string round trip -/

/-- C1: `SetStr` checks, in this order, a double quote in the key
(`ErrInvalidKey`), a double quote in the value (`ErrInvalidValue`) and the
empty key (`ErrInvalidKey`), each of them returning the environment untouched;
only when none of the three holds is the result that of the write `os.Setenv`. -/
theorem setStr_checks_in_order (env : Environ) (key value : String) :
    ('"' ∈ key.data → Env.SetStr env key value = (env, some Env.Error.ErrInvalidKey)) ∧
    ('"' ∉ key.data → '"' ∈ value.data →
      Env.SetStr env key value = (env, some Env.Error.ErrInvalidValue)) ∧
    ('"' ∉ key.data → '"' ∉ value.data → key = "" →
      Env.SetStr env key value = (env, some Env.Error.ErrInvalidKey)) ∧
    ('"' ∉ key.data → '"' ∉ value.data → key ≠ "" →
      Env.SetStr env key value = os.Setenv env key value) := by
  rw [setStr_cases]
  refine ⟨?_, ?_, ?_, ?_⟩
  · intro h; rw [if_pos h]
  · intro h1 h2; rw [if_neg h1, if_pos h2]
  · intro h1 h2 h3; rw [if_neg h1, if_neg h2, if_pos h3]
  · intro h1 h2 h3; rw [if_neg h1, if_neg h2, if_neg h3]

/-- C1 at an empty key with a quoted value: the value check comes before the
empty-key check, so the error is `ErrInvalidValue`. -/
theorem setStr_checks_in_order_witness :
    Env.SetStr [("A", "1")] "" "v\"" = ([("A", "1")], some Env.Error.ErrInvalidValue) :=
  (setStr_checks_in_order [("A", "1")] "" "v\"").2.1 (by decide) (by decide)

/-- C2 as stated fails: the key `A=B` is non-empty and free of double quotes,
yet `SetStr` returns the `EINVAL` of `os.Setenv` and the key stays unset; so
it is with a NUL byte in the key or in the value. -/
theorem setStr_roundtrip_counterexample :
    ("A=B" ≠ "" ∧ '"' ∉ "A=B".data ∧ '"' ∉ "v".data ∧
      (Env.SetStr [] "A=B" "v").2 = some (Env.Error.SyscallError "setenv" syscall.Errno.EINVAL) ∧
      Env.Str (Env.SetStr [] "A=B" "v").1 "A=B" "fb" = "fb") ∧
    ("A\x00" ≠ "" ∧ '"' ∉ "A\x00".data ∧
      (Env.SetStr [] "A\x00" "v").2 = some (Env.Error.SyscallError "setenv" syscall.Errno.EINVAL)) ∧
    ('"' ∉ "v\x00".data ∧
      (Env.SetStr [] "A" "v\x00").2 = some (Env.Error.SyscallError "setenv" syscall.Errno.EINVAL)) := by
  decide

/-- C2, amended: for every environment, every non-empty key without a double
quote, `=` or NUL, and every value without a double quote or NUL,
`SetStr(key, value)` returns no error and a following `Str(key, fb)` returns
`value` for every fallback. -/
theorem setStr_then_str (env : Environ) (key value : String)
    (hk : key ≠ "") (hq : '"' ∉ key.data) (hv : '"' ∉ value.data)
    (he : '=' ∉ key.data) (hz : Char.ofNat 0 ∉ key.data) (hvz : Char.ofNat 0 ∉ value.data) :
    (Env.SetStr env key value).2 = none ∧
    ∀ fb : String, Env.Str (Env.SetStr env key value).1 key fb = value := by
  rw [setStr_success env key value hk hq hv he hz hvz]
  refine ⟨rfl, ?_⟩
  intro fb
  simp only [Env.Str, lookupEnv_assign_same env key value hk]

/-- C2, amended, on an environment where the key is already set. -/
theorem setStr_then_str_witness :
    (Env.SetStr [("KEY_1", "old")] "KEY_1" "VAL_1").2 = none ∧
    ∀ fb : String, Env.Str (Env.SetStr [("KEY_1", "old")] "KEY_1" "VAL_1").1 "KEY_1" fb = "VAL_1" :=
  setStr_then_str [("KEY_1", "old")] "KEY_1" "VAL_1"
    (by decide) (by decide) (by decide) (by decide) (by decide) (by decide)

/-- C3: whenever `SetStr`, `SetInt`, `SetBool` or `SetFloat32` returns an
error, the environment after the call is the environment before it. -/
theorem setters_error_keeps_environ :
    (∀ (env : Environ) (key value : String),
      (Env.SetStr env key value).2 ≠ none → (Env.SetStr env key value).1 = env) ∧
    (∀ (env : Environ) (key : String) (value : ℤ),
      (Env.SetInt env key value).2 ≠ none → (Env.SetInt env key value).1 = env) ∧
    (∀ (env : Environ) (key : String) (value : Bool),
      (Env.SetBool env key value).2 ≠ none → (Env.SetBool env key value).1 = env) ∧
    (∀ (F : Type) (formatFloat : F → ℤ → String) (env : Environ) (key : String) (value : F)
        (prec : List ℤ),
      (Env.SetFloat32 formatFloat env key value prec).2 ≠ none →
        (Env.SetFloat32 formatFloat env key value prec).1 = env) := by
  refine ⟨?_, ?_, ?_, ?_⟩
  · intro env key value h
    exact setStr_error_env env key value h
  · intro env key value h
    exact setStr_error_env env key _ h
  · intro env key value h
    exact setStr_error_env env key _ h
  · intro F formatFloat env key value prec h
    exact setStr_error_env env key _ h

/-- C3 at the rejected empty key: `SetInt` fails and the environment, in which
the key was absent, is returned as it was. -/
theorem setters_error_keeps_environ_witness :
    (Env.SetInt [("A", "1")] "" 1).2 = some Env.Error.ErrInvalidKey ∧
    (Env.SetInt [("A", "1")] "" 1).1 = [("A", "1")] :=
  ⟨by decide, setters_error_keeps_environ.2.1 [("A", "1")] "" 1 (by decide)⟩

/-- C4 as stated fails: with the empty key and a value holding a double quote,
`SetStr` returns `ErrInvalidValue`, not `ErrInvalidKey`. -/
theorem setStr_invalid_key_counterexample :
    Env.SetStr [] "" "\"" = ([], some Env.Error.ErrInvalidValue) ∧
    (Env.SetStr [] "" "\"").2 ≠ some Env.Error.ErrInvalidKey := by
  decide

/-- C4, amended: `SetStr(key, value)` fails with `ErrInvalidKey` for every key
containing a double quote and every value, and for the empty key and every
value without a double quote. -/
theorem setStr_invalid_key (env : Environ) (key value : String)
    (h : '"' ∈ key.data ∨ (key = "" ∧ '"' ∉ value.data)) :
    Env.SetStr env key value = (env, some Env.Error.ErrInvalidKey) := by
  rw [setStr_cases]
  rcases h with h | ⟨hk, hv⟩
  · rw [if_pos h]
  · subst hk
    have hq : '"' ∉ "".data := by decide
    rw [if_neg hq, if_neg hv, if_pos rfl]

/-- C4, amended, at the key `KEY_1"` with a value that holds a quote too. -/
theorem setStr_invalid_key_witness :
    Env.SetStr [] "KEY_1\"" "VAL\"1" = ([], some Env.Error.ErrInvalidKey) :=
  setStr_invalid_key [] "KEY_1\"" "VAL\"1" (Or.inl (by decide))

/-! ## The getters -/

/-- C5: `Str(key, fallback)` returns the stored raw value unchanged when the
key is present (the empty string included) and `fallback` when it is absent. -/
theorem str_present_or_fallback (env : Environ) (key fallback : String) :
    (∀ raw : String, os.LookupEnv env key = some raw → Env.Str env key fallback = raw) ∧
    (os.LookupEnv env key = none → Env.Str env key fallback = fallback) := by
  constructor
  · intro raw h
    simp only [Env.Str, h]
  · intro h
    simp only [Env.Str, h]

/-- C5 on a key bound to the empty string: the empty string is returned, not
the fallback. -/
theorem str_present_or_fallback_witness :
    Env.Str [("STR_1", "")] "STR_1" "fallback" = "" :=
  (str_present_or_fallback [("STR_1", "")] "STR_1" "fallback").1 "" (by decide)

/-- C8: for a key that is not present, `Str`, `Int`, `Bool` and `Float32`
all return their fallback. -/
theorem getters_absent_key (env : Environ) (key : String) (h : os.LookupEnv env key = none) :
    (∀ fb : String, Env.Str env key fb = fb) ∧
    (∀ fb : ℤ, Env.Int env key fb = fb) ∧
    (∀ (caseTable : Char → Char) (fb : Bool), Env.Bool caseTable env key fb = fb) ∧
    (∀ (F : Type) (parseFloat32 : String → F × Option strconv.NumError) (fb : F),
      Env.Float32 parseFloat32 env key fb = fb) := by
  have hs : Env.Str env key "" = "" := by simp only [Env.Str, h]
  refine ⟨?_, ?_, ?_, ?_⟩
  · intro fb
    simp only [Env.Str, h]
  · intro fb
    simp only [Env.Int, hs, if_true]
  · intro caseTable fb
    simp only [Env.Bool, hs, if_true]
  · intro F parseFloat32 fb
    simp only [Env.Float32, hs, if_true]

/-- C8 on an environment where another key is set. -/
theorem getters_absent_key_witness :
    (∀ fb : String, Env.Str [("INT_1", "1")] "INT_2" fb = fb) ∧
    (∀ fb : ℤ, Env.Int [("INT_1", "1")] "INT_2" fb = fb) ∧
    (∀ (caseTable : Char → Char) (fb : Bool), Env.Bool caseTable [("INT_1", "1")] "INT_2" fb = fb) ∧
    (∀ (F : Type) (parseFloat32 : String → F × Option strconv.NumError) (fb : F),
      Env.Float32 parseFloat32 [("INT_1", "1")] "INT_2" fb = fb) :=
  getters_absent_key [("INT_1", "1")] "INT_2" (by decide)

/-! ## Case-insensitive booleans -/

theorem lowerASCII_of_sameLetter (a b : Char) (h : sameLetter a b = true)
    (hb : strings.isUpperASCII b = false) (hb2 : b.toNat < 128) :
    a.toNat < 128 ∧ strings.lowerASCII a = b := by
  simp only [sameLetter, Bool.or_eq_true, decide_eq_true_eq] at h
  simp only [strings.isUpperASCII, decide_eq_false_iff_not] at hb
  rcases h with (h | h) | h
  · subst h
    refine ⟨hb2, ?_⟩
    simp [strings.lowerASCII, strings.isUpperASCII, hb]
  · refine ⟨by omega, ?_⟩
    have hu : strings.isUpperASCII a = true := by
      simp only [strings.isUpperASCII, decide_eq_true_eq]; omega
    simp only [strings.lowerASCII, hu, if_true]
    rw [h.2.2]
    exact Char.ofNat_toNat b
  · exact absurd ⟨h.1, h.2.1⟩ hb

theorem sameLetter_lowerASCII (a : Char) : sameLetter a (strings.lowerASCII a) = true := by
  by_cases hu : strings.isUpperASCII a = true
  · have hu2 := hu
    simp only [strings.isUpperASCII, decide_eq_true_eq] at hu2
    have ht : (Char.ofNat (a.toNat + 32)).toNat = a.toNat + 32 :=
      toNat_ofNat_of_lt _ (by omega)
    simp only [strings.lowerASCII, hu, if_true, sameLetter, Bool.or_eq_true, decide_eq_true_eq]
    left; right
    exact ⟨hu2.1, hu2.2, ht.symm⟩
  · simp [strings.lowerASCII, hu, sameLetter]

theorem map_lowerASCII_of_equalsIgnoringCase (xs ys : List Char)
    (h : equalsIgnoringCase xs ys = true)
    (hy : ∀ y ∈ ys, strings.isUpperASCII y = false ∧ y.toNat < 128) :
    (xs.all (fun c => decide (c.toNat < 128))) = true ∧ xs.map strings.lowerASCII = ys := by
  induction xs generalizing ys with
  | nil =>
    cases ys with
    | nil => simp
    | cons y ys => simp [equalsIgnoringCase] at h
  | cons x xs ih =>
    cases ys with
    | nil => simp [equalsIgnoringCase] at h
    | cons y ys =>
      simp only [equalsIgnoringCase, Bool.and_eq_true] at h
      have hy0 := hy y (List.mem_cons_self y ys)
      have h1 := lowerASCII_of_sameLetter x y h.1 hy0.1 hy0.2
      have h2 := ih ys h.2 (fun z hz => hy z (List.mem_cons_of_mem y hz))
      simp only [List.all_cons, Bool.and_eq_true, decide_eq_true_eq, List.map_cons]
      exact ⟨⟨h1.1, h2.1⟩, by rw [h1.2, h2.2]⟩

theorem equalsIgnoringCase_of_map_lowerASCII (xs ys : List Char)
    (h : xs.map strings.lowerASCII = ys) : equalsIgnoringCase xs ys = true := by
  subst h
  induction xs with
  | nil => rfl
  | cons x xs ih =>
    simp only [List.map_cons, equalsIgnoringCase, Bool.and_eq_true]
    exact ⟨sameLetter_lowerASCII x, ih⟩

theorem map_lowerASCII_of_no_upper (xs : List Char)
    (h : (xs.any strings.isUpperASCII) = false) : xs.map strings.lowerASCII = xs := by
  induction xs with
  | nil => rfl
  | cons x xs ih =>
    simp only [List.any_cons, Bool.or_eq_false_iff] at h
    simp only [List.map_cons, ih h.2, strings.lowerASCII, h.1]
    simp

/-- On a string of ASCII bytes `strings.ToLower` lowers every byte. -/
theorem toLower_data_of_ascii (caseTable : Char → Char) (s : String)
    (h : (s.data.all (fun c => decide (c.toNat < 128))) = true) :
    (strings.ToLower caseTable s).data = s.data.map strings.lowerASCII := by
  unfold strings.ToLower
  rw [if_pos h]
  by_cases hu : (s.data.any strings.isUpperASCII) = true
  · rw [if_pos hu]
  · rw [if_neg hu]
    have hu2 : (s.data.any strings.isUpperASCII) = false := by
      simpa using hu
    exact (map_lowerASCII_of_no_upper s.data hu2).symm

/-- On any other string the result holds the case-table image of a rune above
U+007F. -/
theorem toLower_data_of_not_ascii (caseTable : Char → Char) (s : String)
    (h : ¬ (s.data.all (fun c => decide (c.toNat < 128))) = true) :
    ∃ c ∈ s.data, 128 ≤ c.toNat ∧ caseTable c ∈ (strings.ToLower caseTable s).data := by
  unfold strings.ToLower
  rw [if_neg h]
  simp only [List.all_eq_true, decide_eq_true_eq, not_forall] at h
  obtain ⟨c, hc, hlt⟩ := h
  refine ⟨c, hc, by omega, ?_⟩
  have hm : unicode.ToLower caseTable c ∈ s.data.map (unicode.ToLower caseTable) :=
    List.mem_map_of_mem _ hc
  have hb : ¬ c.toNat ≤ 127 := by omega
  simpa only [unicode.ToLower, hb, if_false] using hm

/-- The lowered raw value equals a lower-case ASCII literal exactly when the raw
value equals the literal ignoring letter case, provided the case table sends
no rune of the raw value above U+007F into the literal. -/
theorem toLower_eq_iff (caseTable : Char → Char) (s lit : String)
    (hy : ∀ y ∈ lit.data, strings.isUpperASCII y = false ∧ y.toNat < 128) :
    (equalsIgnoringCase s.data lit.data = true → strings.ToLower caseTable s = lit) ∧
    ((∀ c ∈ s.data, 128 ≤ c.toNat → caseTable c ∉ lit.data) →
      strings.ToLower caseTable s = lit → equalsIgnoringCase s.data lit.data = true) := by
  constructor
  · intro h
    have h1 := map_lowerASCII_of_equalsIgnoringCase s.data lit.data h hy
    apply String.ext_iff.mpr
    rw [toLower_data_of_ascii caseTable s h1.1, h1.2]
  · intro ht h
    by_cases ha : (s.data.all (fun c => decide (c.toNat < 128))) = true
    · apply equalsIgnoringCase_of_map_lowerASCII
      rw [← toLower_data_of_ascii caseTable s ha, h]
    · obtain ⟨c, hcs, hc, hm⟩ := toLower_data_of_not_ascii caseTable s ha
      rw [h] at hm
      exact absurd hm (ht c hcs hc)

/-- C7: with the key present and raw value `s`, `Bool(key, fb)` is `true` when
`s` equals `"true"` ignoring letter case and `false` when `s` equals `"false"`
ignoring letter case, whatever `fb` is; for every other `s` it is `fb`, given
that the Unicode case table maps no rune of `s` above U+007F to a letter of
`"true"` or `"false"` (nothing is assumed when `s` is ASCII). -/
theorem bool_ignores_case (caseTable : Char → Char) (env : Environ) (key s : String)
    (h : os.LookupEnv env key = some s) :
    (equalsIgnoringCase s.data "true".data = true →
      ∀ fb : Bool, Env.Bool caseTable env key fb = true) ∧
    (equalsIgnoringCase s.data "false".data = true →
      ∀ fb : Bool, Env.Bool caseTable env key fb = false) ∧
    ((∀ c ∈ s.data, 128 ≤ c.toNat → caseTable c ∉ "true".data ∧ caseTable c ∉ "false".data) →
      equalsIgnoringCase s.data "true".data = false →
      equalsIgnoringCase s.data "false".data = false →
      ∀ fb : Bool, Env.Bool caseTable env key fb = fb) := by
  have hs : Env.Str env key "" = s := by simp only [Env.Str, h]
  have hT := toLower_eq_iff caseTable s "true" (by decide)
  have hF := toLower_eq_iff caseTable s "false" (by decide)
  refine ⟨?_, ?_, ?_⟩
  · intro he fb
    have hne : s ≠ "" := by
      intro e; subst e; simp [equalsIgnoringCase] at he
    simp only [Env.Bool, hs, if_neg hne, hT.1 he, if_true]
  · intro he fb
    have hne : s ≠ "" := by
      intro e; subst e; simp [equalsIgnoringCase] at he
    have hft : ¬ ("false" = "true") := by decide
    simp only [Env.Bool, hs, if_neg hne, hF.1 he, if_true, if_neg hft]
  · intro ht h1 h2 fb
    have n1 : ¬ strings.ToLower caseTable s = "true" := by
      intro e
      have := hT.2 (fun c hcs hc => (ht c hcs hc).1) e
      rw [h1] at this
      exact Bool.noConfusion this
    have n2 : ¬ strings.ToLower caseTable s = "false" := by
      intro e
      have := hF.2 (fun c hcs hc => (ht c hcs hc).2) e
      rw [h2] at this
      exact Bool.noConfusion this
    simp only [Env.Bool, hs, if_neg n1, if_neg n2]
    split_ifs <;> rfl

/-- A case table that leaves every rune where it is sends no rune above
U+007F to a letter of `true` or `false`. -/
theorem id_table_avoids_literals (c : Char) (hc : 128 ≤ c.toNat) :
    id c ∉ "true".data ∧ id c ∉ "false".data := by
  constructor
  · intro hm
    change c ∈ ['t', 'r', 'u', 'e'] at hm
    simp only [List.mem_cons, List.mem_singleton, List.not_mem_nil, or_false] at hm
    rcases hm with e | e | e | e <;> (subst e; exact absurd hc (by decide))
  · intro hm
    change c ∈ ['f', 'a', 'l', 's', 'e'] at hm
    simp only [List.mem_cons, List.mem_singleton, List.not_mem_nil, or_false] at hm
    rcases hm with e | e | e | e | e <;> (subst e; exact absurd hc (by decide))

/-- C7 at the raw values `TrUe`, `fAlSe`, `yes` and `trüe`, with the identity
as case table. -/
theorem bool_ignores_case_witness :
    Env.Bool id [("BOOL_1", "TrUe")] "BOOL_1" false = true ∧
    Env.Bool id [("BOOL_1", "fAlSe")] "BOOL_1" true = false ∧
    Env.Bool id [("BOOL_1", "yes")] "BOOL_1" true = true ∧
    Env.Bool id [("BOOL_1", "trüe")] "BOOL_1" false = false :=
  ⟨(bool_ignores_case id [("BOOL_1", "TrUe")] "BOOL_1" "TrUe" (by decide)).1 (by decide) false,
   (bool_ignores_case id [("BOOL_1", "fAlSe")] "BOOL_1" "fAlSe" (by decide)).2.1 (by decide) true,
   (bool_ignores_case id [("BOOL_1", "yes")] "BOOL_1" "yes" (by decide)).2.2
    (fun c _ hc => id_table_avoids_literals c hc) (by decide) (by decide) true,
   (bool_ignores_case id [("BOOL_1", "trüe")] "BOOL_1" "trüe" (by decide)).2.2
    (fun c _ hc => id_table_avoids_literals c hc) (by decide) (by decide) false⟩

/-! ## Parsing integers -/

theorem wrapInt64_of_inRange (x : ℤ) (h1 : -(2 ^ 63) ≤ x) (h2 : x < 2 ^ 63) :
    wrapInt64 x = x := by
  unfold wrapInt64
  rw [Int.emod_eq_of_lt (by omega) (by omega)]
  omega

theorem decimalValue_nil (n : ℕ) : decimalValue n [] = n := rfl

theorem decimalValue_cons (n : ℕ) (c : Char) (cs : List Char) :
    decimalValue n (c :: cs) = decimalValue (n * 10 + (c.toNat - 48)) cs := rfl

theorem decimalValue_ge (cs : List Char) (n : ℕ) : n ≤ decimalValue n cs := by
  induction cs generalizing n with
  | nil => exact le_refl n
  | cons c cs ih =>
    have := ih (n * 10 + (c.toNat - 48))
    rw [decimalValue_cons]
    omega

theorem decimalValue_lt (cs : List Char) (n : ℕ) (h : cs.all isDecimalDigit = true) :
    decimalValue n cs < (n + 1) * 10 ^ cs.length := by
  induction cs generalizing n with
  | nil => rw [decimalValue_nil]; simp
  | cons c cs ih =>
    rw [List.all_cons, Bool.and_eq_true] at h
    have hc := h.1
    simp only [isDecimalDigit, decide_eq_true_eq] at hc
    have h1 := ih (n * 10 + (c.toNat - 48)) h.2
    rw [decimalValue_cons, List.length_cons, pow_succ]
    have h2 : (n * 10 + (c.toNat - 48) + 1) * 10 ^ cs.length ≤ ((n + 1) * 10) * 10 ^ cs.length :=
      Nat.mul_le_mul_right _ (by omega)
    calc decimalValue (n * 10 + (c.toNat - 48)) cs
        < (n * 10 + (c.toNat - 48) + 1) * 10 ^ cs.length := h1
      _ ≤ ((n + 1) * 10) * 10 ^ cs.length := h2
      _ = (n + 1) * (10 ^ cs.length * 10) := by ring

/-- The fast loop of `Atoi` stops with a syntax error at the first byte that
is not a digit. -/
theorem atoiFastLoop_nondigit (cs : List Char) (n : ℤ) (h : cs.all isDecimalDigit = false) :
    strconv.atoiFastLoop cs n = (0, some strconv.NumError.ErrSyntax) := by
  induction cs generalizing n with
  | nil => simp at h
  | cons c cs ih =>
    by_cases hc : isDecimalDigit c = true
    · have hcs : cs.all isDecimalDigit = false := by
        simpa [List.all_cons, hc] using h
      simp only [isDecimalDigit, decide_eq_true_eq] at hc
      have hn : ¬ (c.toNat < 48 ∨ c.toNat - 48 > 9) := by omega
      simp only [strconv.atoiFastLoop, if_neg hn]
      exact ih _ hcs
    · simp only [isDecimalDigit, decide_eq_true_eq] at hc
      have hn : c.toNat < 48 ∨ c.toNat - 48 > 9 := by omega
      simp only [strconv.atoiFastLoop, if_pos hn]

/-- On digits whose value fits an `int64` the fast loop of `Atoi` never wraps
and returns the value. -/
theorem atoiFastLoop_value (cs : List Char) (n : ℕ) (h : cs.all isDecimalDigit = true)
    (hb : decimalValue n cs < 2 ^ 63) :
    strconv.atoiFastLoop cs (n : ℤ) = ((decimalValue n cs : ℤ), none) := by
  induction cs generalizing n with
  | nil => rw [decimalValue_nil]; rfl
  | cons c cs ih =>
    simp only [List.all_cons, Bool.and_eq_true, isDecimalDigit, decide_eq_true_eq] at h
    rw [decimalValue_cons] at hb ⊢
    have hn : ¬ (c.toNat < 48 ∨ c.toNat - 48 > 9) := by omega
    have hge := decimalValue_ge cs (n * 10 + (c.toNat - 48))
    have hw : wrapInt64 ((n : ℤ) * 10 + ((c.toNat - 48 : ℕ) : ℤ))
        = ((n * 10 + (c.toNat - 48) : ℕ) : ℤ) := by
      rw [wrapInt64_of_inRange _ (by omega) (by omega)]
      push_cast
      rfl
    simp only [strconv.atoiFastLoop, if_neg hn, hw]
    exact ih _ h.2 hb

/-- The loop of `ParseUint` at a byte that is not a decimal digit: a syntax
error (letters are digits of a base above 10). -/
theorem parseUintLoop_nondigit (c : Char) (cs : List Char) (n : ℕ)
    (hc : isDecimalDigit c = false) :
    strconv.parseUintLoop (c :: cs) n = (0, some strconv.NumError.ErrSyntax) := by
  simp only [isDecimalDigit, decide_eq_false_iff_not] at hc
  have hd : (c.toNat ||| 32) - 97 + 10 ≥ 10 := Nat.le_add_left _ _
  rw [strconv.parseUintLoop]
  simp only [if_neg hc, if_pos hd]
  split_ifs <;> rfl

/-- The loop of `ParseUint` at a decimal digit: a range error when the
accumulated number times 10 plus the digit leaves `uint64`, the next iteration
otherwise. -/
theorem parseUintLoop_digit (c : Char) (cs : List Char) (n : ℕ)
    (hc : isDecimalDigit c = true) (hn : n < 2 ^ 64) :
    strconv.parseUintLoop (c :: cs) n =
      if n * 10 + (c.toNat - 48) < 2 ^ 64 then strconv.parseUintLoop cs (n * 10 + (c.toNat - 48))
      else (2 ^ 64 - 1, some strconv.NumError.ErrRange) := by
  simp only [isDecimalDigit, decide_eq_true_eq] at hc
  have hd : ¬ (c.toNat - 48 ≥ 10) := by omega
  rw [strconv.parseUintLoop]
  simp only [if_pos hc, if_neg hd]
  by_cases h1 : n ≥ (2 ^ 64 - 1) / 10 + 1
  · have h2 : ¬ (n * 10 + (c.toNat - 48) < 2 ^ 64) := by omega
    rw [if_pos h1, if_neg h2]
  · rw [if_neg h1]
    have h3 : n * 10 % 2 ^ 64 = n * 10 := Nat.mod_eq_of_lt (by omega)
    rw [h3]
    by_cases h2 : n * 10 + (c.toNat - 48) < 2 ^ 64
    · have h4 : (n * 10 + (c.toNat - 48)) % 2 ^ 64 = n * 10 + (c.toNat - 48) :=
        Nat.mod_eq_of_lt h2
      have h5 : ¬ (n * 10 + (c.toNat - 48) < n * 10 ∨ n * 10 + (c.toNat - 48) > 2 ^ 64 - 1) := by
        omega
      rw [h4, if_neg h5, if_pos h2]
    · have h4 : (n * 10 + (c.toNat - 48)) % 2 ^ 64 = n * 10 + (c.toNat - 48) - 2 ^ 64 := by
        rw [Nat.mod_eq_sub_mod (by omega)]
        exact Nat.mod_eq_of_lt (by omega)
      have h5 : n * 10 + (c.toNat - 48) - 2 ^ 64 < n * 10 ∨
          n * 10 + (c.toNat - 48) - 2 ^ 64 > 2 ^ 64 - 1 := by
        left; omega
      rw [h4, if_pos h5, if_neg h2]

/-- On digits whose value fits a `uint64` the loop of `ParseUint` returns the
value. -/
theorem parseUintLoop_value (cs : List Char) (n : ℕ) (h : cs.all isDecimalDigit = true)
    (hb : decimalValue n cs < 2 ^ 64) :
    strconv.parseUintLoop cs n = (decimalValue n cs, none) := by
  induction cs generalizing n with
  | nil => rw [decimalValue_nil]; rfl
  | cons c cs ih =>
    rw [List.all_cons, Bool.and_eq_true] at h
    rw [decimalValue_cons] at hb ⊢
    have hge := decimalValue_ge cs (n * 10 + (c.toNat - 48))
    have hn : n < 2 ^ 64 := by omega
    rw [parseUintLoop_digit c cs n h.1 hn, if_pos (by omega)]
    exact ih _ h.2 hb

/-- On every other input the loop of `ParseUint` ends in a syntax error or in a
range error carrying `maxVal`. -/
theorem parseUintLoop_error (cs : List Char) (n : ℕ) (hn : n < 2 ^ 64)
    (h : cs.all isDecimalDigit = false ∨ 2 ^ 64 ≤ decimalValue n cs) :
    strconv.parseUintLoop cs n = (0, some strconv.NumError.ErrSyntax) ∨
    strconv.parseUintLoop cs n = (2 ^ 64 - 1, some strconv.NumError.ErrRange) := by
  induction cs generalizing n with
  | nil =>
    rcases h with h | h
    · simp at h
    · rw [decimalValue_nil] at h; omega
  | cons c cs ih =>
    by_cases hc : isDecimalDigit c = true
    · rw [parseUintLoop_digit c cs n hc hn]
      by_cases h2 : n * 10 + (c.toNat - 48) < 2 ^ 64
      · rw [if_pos h2]
        apply ih _ h2
        rcases h with h | h
        · left
          simpa [List.all_cons, hc] using h
        · right
          rw [decimalValue_cons] at h
          exact h
      · rw [if_neg h2]
        right; rfl
    · left
      exact parseUintLoop_nondigit c cs n (by simpa using hc)

theorem wrapInt64_of_high (x : ℤ) (h1 : 2 ^ 63 ≤ x) (h2 : x < 2 ^ 64 + 2 ^ 63) :
    wrapInt64 x = x - 2 ^ 64 := by
  unfold wrapInt64
  have h : (x + 2 ^ 63) % 2 ^ 64 = x + 2 ^ 63 - 2 ^ 64 := by
    rw [Int.emod_eq_sub_self_emod]
    exact Int.emod_eq_of_lt (by omega) (by omega)
  rw [h]
  omega

theorem isNumeral_iff (ds : List Char) :
    isNumeral ds = true ↔ ds ≠ [] ∧ ds.all isDecimalDigit = true := by
  cases ds with
  | nil => simp [isNumeral]
  | cons c cs => simp [isNumeral]

/-- The signed value of a magnitude. -/
theorem parseUint_value (s : List Char) (h : isNumeral s = true)
    (hb : decimalValue 0 s < 2 ^ 64) : strconv.ParseUint s = (decimalValue 0 s, none) := by
  rw [isNumeral_iff] at h
  unfold strconv.ParseUint
  rw [if_neg h.1]
  exact parseUintLoop_value s 0 h.2 hb

theorem parseUint_error (s : List Char)
    (h : isNumeral s = false ∨ 2 ^ 64 ≤ decimalValue 0 s) :
    strconv.ParseUint s = (0, some strconv.NumError.ErrSyntax) ∨
    strconv.ParseUint s = (2 ^ 64 - 1, some strconv.NumError.ErrRange) := by
  unfold strconv.ParseUint
  by_cases he : s = []
  · rw [if_pos he]; left; rfl
  · rw [if_neg he]
    apply parseUintLoop_error s 0 (by norm_num)
    rcases h with h | h
    · left
      by_cases ha : s.all isDecimalDigit = true
      · have : isNumeral s = true := (isNumeral_iff s).mpr ⟨he, ha⟩
        rw [h] at this
        exact Bool.noConfusion this
      · simpa using ha
    · right; exact h

theorem parseIntConvert_eq (neg : Bool) (s : List Char) (un : ℕ)
    (err : Option strconv.NumError) (h : strconv.ParseUint s = (un, err)) :
    strconv.parseIntConvert neg s =
      if err = some strconv.NumError.ErrSyntax then (0, err)
      else if neg = false ∧ un ≥ 2 ^ 63 then (2 ^ 63 - 1, some strconv.NumError.ErrRange)
      else if neg = true ∧ un > 2 ^ 63 then (-(2 ^ 63), some strconv.NumError.ErrRange)
      else (if neg = true then wrapInt64 (-(wrapInt64 (un : ℤ))) else wrapInt64 (un : ℤ), none) := by
  unfold strconv.parseIntConvert
  rw [h]

/-- The conversion of `ParseInt` returns the signed value of a numeral that is
in the range of `int`. -/
theorem parseIntConvert_value (neg : Bool) (s : List Char) (h : isNumeral s = true)
    (hr : inIntRange (if neg = true then -(decimalValue 0 s : ℤ) else (decimalValue 0 s : ℤ)) = true) :
    strconv.parseIntConvert neg s =
      (if neg = true then -(decimalValue 0 s : ℤ) else (decimalValue 0 s : ℤ), none) := by
  simp only [inIntRange, decide_eq_true_eq] at hr
  have hs : ¬ ((none : Option strconv.NumError) = some strconv.NumError.ErrSyntax) := by
    intro e; exact Option.noConfusion e
  cases neg with
  | false =>
    simp only [Bool.false_eq_true, if_false] at hr ⊢
    have hb : decimalValue 0 s < 2 ^ 63 := by omega
    have hc1 : ¬ (false = false ∧ decimalValue 0 s ≥ 2 ^ 63) := by omega
    have hc2 : ¬ (false = true ∧ decimalValue 0 s > 2 ^ 63) := by simp
    rw [parseIntConvert_eq false s _ _ (parseUint_value s h (by omega)),
      if_neg hs, if_neg hc1, if_neg hc2]
    simp only [Bool.false_eq_true, if_false]
    rw [wrapInt64_of_inRange (decimalValue 0 s : ℤ) (by omega) (by omega)]
  | true =>
    simp only [if_true] at hr ⊢
    have hb : decimalValue 0 s ≤ 2 ^ 63 := by omega
    have hc1 : ¬ (true = false ∧ decimalValue 0 s ≥ 2 ^ 63) := by simp
    have hc2 : ¬ (true = true ∧ decimalValue 0 s > 2 ^ 63) := by omega
    rw [parseIntConvert_eq true s _ _ (parseUint_value s h (by omega)),
      if_neg hs, if_neg hc1, if_neg hc2]
    simp only [if_true]
    by_cases he : decimalValue 0 s = 2 ^ 63
    · have h1 : wrapInt64 (decimalValue 0 s : ℤ) = (decimalValue 0 s : ℤ) - 2 ^ 64 :=
        wrapInt64_of_high (decimalValue 0 s : ℤ) (by omega) (by omega)
      rw [h1]
      have h2 : wrapInt64 (-((decimalValue 0 s : ℤ) - 2 ^ 64))
          = -((decimalValue 0 s : ℤ) - 2 ^ 64) - 2 ^ 64 :=
        wrapInt64_of_high (-((decimalValue 0 s : ℤ) - 2 ^ 64)) (by omega) (by omega)
      have h3 : -((decimalValue 0 s : ℤ) - 2 ^ 64) - 2 ^ 64 = -(decimalValue 0 s : ℤ) := by
        omega
      rw [h2, h3]
    · have h1 : wrapInt64 (decimalValue 0 s : ℤ) = (decimalValue 0 s : ℤ) :=
        wrapInt64_of_inRange (decimalValue 0 s : ℤ) (by omega) (by omega)
      rw [h1, wrapInt64_of_inRange (-(decimalValue 0 s : ℤ)) (by omega) (by omega)]

/-- The conversion of `ParseInt` returns an error on everything else. -/
theorem parseIntConvert_error (neg : Bool) (s : List Char)
    (h : isNumeral s = false ∨
      inIntRange (if neg = true then -(decimalValue 0 s : ℤ) else (decimalValue 0 s : ℤ)) = false) :
    (strconv.parseIntConvert neg s).2 ≠ none := by
  have hs : ¬ ((none : Option strconv.NumError) = some strconv.NumError.ErrSyntax) := by
    intro e; exact Option.noConfusion e
  have hrs : ¬ (some strconv.NumError.ErrRange = some strconv.NumError.ErrSyntax) := by
    decide
  by_cases hgood : isNumeral s = true ∧ decimalValue 0 s < 2 ^ 64
  · have hr : inIntRange (if neg = true then -(decimalValue 0 s : ℤ) else (decimalValue 0 s : ℤ)) = false := by
      rcases h with h | h
      · rw [hgood.1] at h; exact Bool.noConfusion h
      · exact h
    simp only [inIntRange, decide_eq_false_iff_not] at hr
    rw [parseIntConvert_eq neg s _ _ (parseUint_value s hgood.1 hgood.2), if_neg hs]
    cases neg with
    | false =>
      simp only [Bool.false_eq_true, if_false] at hr
      have hc : false = false ∧ decimalValue 0 s ≥ 2 ^ 63 := ⟨rfl, by omega⟩
      rw [if_pos hc]
      exact fun e => Option.noConfusion e
    | true =>
      simp only [if_true] at hr
      have hc1 : ¬ (true = false ∧ decimalValue 0 s ≥ 2 ^ 63) := by simp
      have hc : true = true ∧ decimalValue 0 s > 2 ^ 63 := ⟨rfl, by omega⟩
      rw [if_neg hc1, if_pos hc]
      exact fun e => Option.noConfusion e
  · have hbad : isNumeral s = false ∨ 2 ^ 64 ≤ decimalValue 0 s := by
      by_cases hn : isNumeral s = true
      · right
        have : ¬ decimalValue 0 s < 2 ^ 64 := fun hlt => hgood ⟨hn, hlt⟩
        omega
      · left; simpa using hn
    rcases parseUint_error s hbad with e | e
    · rw [parseIntConvert_eq neg s _ _ e, if_pos rfl]
      exact fun e => Option.noConfusion e
    · rw [parseIntConvert_eq neg s _ _ e, if_neg hrs]
      cases neg with
      | false =>
        have hc : false = false ∧ 2 ^ 64 - 1 ≥ 2 ^ 63 := ⟨rfl, by norm_num⟩
        rw [if_pos hc]
        exact fun e => Option.noConfusion e
      | true =>
        have hc1 : ¬ (true = false ∧ 2 ^ 64 - 1 ≥ 2 ^ 63) := by simp
        have hc : true = true ∧ 2 ^ 64 - 1 > 2 ^ 63 := ⟨rfl, by norm_num⟩
        rw [if_neg hc1, if_pos hc]
        exact fun e => Option.noConfusion e

theorem decimalValue_lt_of_short (s : List Char) (h : s.all isDecimalDigit = true)
    (hl : s.length ≤ 18) : decimalValue 0 s < 10 ^ 18 := by
  have h1 := decimalValue_lt s 0 h
  have h2 : 10 ^ s.length ≤ 10 ^ 18 := Nat.pow_le_pow_right (by norm_num) hl
  omega

/-- The fast path of `Atoi` returns the signed value of at most 18 digits. -/
theorem atoiFastDigits_value (neg : Bool) (s : List Char) (h : s.all isDecimalDigit = true)
    (hl : s.length ≤ 18) :
    strconv.atoiFastDigits neg s =
      (if neg = true then -(decimalValue 0 s : ℤ) else (decimalValue 0 s : ℤ), none) := by
  have hv := decimalValue_lt_of_short s h hl
  have hloop := atoiFastLoop_value s 0 h (by omega)
  have h0 : ((0 : ℕ) : ℤ) = 0 := rfl
  rw [h0] at hloop
  unfold strconv.atoiFastDigits
  rw [hloop]
  have hn : ¬ ((none : Option strconv.NumError) ≠ none) := fun e => e rfl
  simp only [if_neg hn]
  cases neg with
  | false => simp only [Bool.false_eq_true, if_false]
  | true =>
    simp only [if_true]
    rw [wrapInt64_of_inRange (-(decimalValue 0 s : ℤ)) (by omega) (by omega)]

/-- The fast path of `Atoi` returns an error when a byte is not a digit. -/
theorem atoiFastDigits_error (neg : Bool) (s : List Char) (h : s.all isDecimalDigit = false) :
    (strconv.atoiFastDigits neg s).2 ≠ none := by
  unfold strconv.atoiFastDigits
  rw [atoiFastLoop_nondigit s 0 h]
  have hn : (some strconv.NumError.ErrSyntax) ≠ none := fun e => Option.noConfusion e
  simp only [if_pos hn]
  exact hn

/-- The sign of a non-empty string, as the specification, `ParseInt` and the
fast path of `Atoi` pick it off: all three work on the same sign and the same
remaining bytes. -/
theorem sign_pick_off (c : Char) (cs : List Char) :
    ∃ (neg : Bool) (body : List Char),
      body.length ≤ (c :: cs).length ∧
      denotedInteger (c :: cs) =
        (if isNumeral body = true then
          some (if neg = true then -(decimalValue 0 body : ℤ) else (decimalValue 0 body : ℤ))
        else none) ∧
      strconv.ParseInt (c :: cs) = strconv.parseIntConvert neg body ∧
      (if c = '-' ∨ c = '+' then
          if cs.length < 1 then (0, some strconv.NumError.ErrSyntax)
          else strconv.atoiFastDigits (decide (c = '-')) cs
        else strconv.atoiFastDigits false (c :: cs)) =
        (if body = [] then (0, some strconv.NumError.ErrSyntax)
          else strconv.atoiFastDigits neg body) := by
  by_cases hm : c = '-'
  · refine ⟨true, cs, by simp, ?_, ?_, ?_⟩
    · rw [denotedInteger, if_pos hm]
      simp only [if_true]
    · have hp : ¬ c = '+' := by rw [hm]; decide
      rw [strconv.ParseInt, if_neg hp, if_pos hm]
    · rw [if_pos (Or.inl hm)]
      cases cs with
      | nil => simp
      | cons d ds => simp [hm]
  · by_cases hp : c = '+'
    · refine ⟨false, cs, by simp, ?_, ?_, ?_⟩
      · rw [denotedInteger, if_neg hm, if_pos hp]
        simp only [Bool.false_eq_true, if_false]
      · rw [strconv.ParseInt, if_pos hp]
      · rw [if_pos (Or.inr hp)]
        cases cs with
        | nil => simp
        | cons d ds => simp [hm]
    · refine ⟨false, c :: cs, le_refl _, ?_, ?_, ?_⟩
      · rw [denotedInteger, if_neg hm, if_neg hp]
        simp only [Bool.false_eq_true, if_false]
      · rw [strconv.ParseInt, if_neg hp, if_neg hm]
      · have hn : ¬ (c = '-' ∨ c = '+') := by
          intro h; rcases h with h | h
          · exact hm h
          · exact hp h
        rw [if_neg hn]
        simp

/-- What `strconv.Atoi` computes: the integer a valid base-10 signed integer
denotes, with no error, and an error on every other string. -/
theorem atoi_spec (s : String) :
    (∀ v : ℤ, validSignedInt s = some v → strconv.Atoi s = (v, none)) ∧
    (validSignedInt s = none → (strconv.Atoi s).2 ≠ none) := by
  cases hs : s.data with
  | nil =>
    have he : s = "" := String.ext_iff.mpr hs
    subst he
    constructor
    · intro v hv
      have hnone : validSignedInt "" = none := by decide
      rw [hnone] at hv
      exact Option.noConfusion hv
    · intro _
      decide
  | cons c cs =>
    obtain ⟨neg, body, hlen, hden, hpi, hfast⟩ := sign_pick_off c cs
    have hvalid : validSignedInt s =
        if isNumeral body = true then
          (if inIntRange (if neg = true then -(decimalValue 0 body : ℤ) else (decimalValue 0 body : ℤ)) = true
            then some (if neg = true then -(decimalValue 0 body : ℤ) else (decimalValue 0 body : ℤ))
            else none)
        else none := by
      unfold validSignedInt
      rw [hs, hden]
      by_cases hnum : isNumeral body = true
      · rw [if_pos hnum, if_pos hnum]
      · rw [if_neg hnum, if_neg hnum]
    by_cases hpath : 0 < len s ∧ len s < 19
    · have hA : strconv.Atoi s =
          (if body = [] then (0, some strconv.NumError.ErrSyntax)
            else strconv.atoiFastDigits neg body) := by
        rw [← hfast]
        unfold strconv.Atoi
        rw [if_pos hpath, hs]
      have hbl : body.length ≤ 18 := by
        have h1 := length_le_len s
        rw [hs] at h1
        omega
      by_cases hnum : isNumeral body = true
      · have hn2 := (isNumeral_iff body).mp hnum
        have hv := decimalValue_lt_of_short body hn2.2 hbl
        have hr : inIntRange (if neg = true then -(decimalValue 0 body : ℤ)
            else (decimalValue 0 body : ℤ)) = true := by
          simp only [inIntRange, decide_eq_true_eq]
          cases neg with
          | false => simp only [Bool.false_eq_true, if_false]; omega
          | true => simp only [if_true]; omega
        rw [hvalid, if_pos hnum, if_pos hr, hA, if_neg hn2.1,
          atoiFastDigits_value neg body hn2.2 hbl]
        constructor
        · intro v hv
          rw [Option.some.inj hv]
        · intro h
          exact Option.noConfusion h
      · rw [hvalid, if_neg hnum, hA]
        constructor
        · intro v hv
          exact Option.noConfusion hv
        · intro _
          by_cases hb : body = []
          · rw [if_pos hb]
            exact fun e => Option.noConfusion e
          · rw [if_neg hb]
            apply atoiFastDigits_error
            by_cases ha : body.all isDecimalDigit = true
            · exact absurd ((isNumeral_iff body).mpr ⟨hb, ha⟩) hnum
            · simpa using ha
    · have hA : strconv.Atoi s = strconv.parseIntConvert neg body := by
        rw [← hpi]
        unfold strconv.Atoi
        rw [if_neg hpath, hs]
      by_cases hgood : isNumeral body = true ∧
          inIntRange (if neg = true then -(decimalValue 0 body : ℤ)
            else (decimalValue 0 body : ℤ)) = true
      · rw [hvalid, if_pos hgood.1, if_pos hgood.2, hA,
          parseIntConvert_value neg body hgood.1 hgood.2]
        constructor
        · intro v hv
          rw [Option.some.inj hv]
        · intro h
          exact Option.noConfusion h
      · have hbad : isNumeral body = false ∨
            inIntRange (if neg = true then -(decimalValue 0 body : ℤ)
              else (decimalValue 0 body : ℤ)) = false := by
          by_cases hnum : isNumeral body = true
          · right
            have : ¬ inIntRange (if neg = true then -(decimalValue 0 body : ℤ)
              else (decimalValue 0 body : ℤ)) = true := fun h => hgood ⟨hnum, h⟩
            simpa using this
          · left; simpa using hnum
        have hnone : validSignedInt s = none := by
          rw [hvalid]
          rcases hbad with h | h
          · rw [h]; rfl
          · rw [h]
            by_cases hnum : isNumeral body = true
            · rw [if_pos hnum]; rfl
            · rw [if_neg hnum]
        rw [hA]
        constructor
        · intro v hv
          rw [hnone] at hv
          exact Option.noConfusion hv
        · intro _
          exact parseIntConvert_error neg body hbad

/-- C6: with the key present and raw value `s`, `Int(key, fb)` (an `int`, never
an error) is `fb` when `s` is the empty string or is not a valid base-10
signed integer (an optional sign and one or more decimal digits, with a value
in the range of `int`), and is the integer that `s` denotes otherwise. -/
theorem int_parses_or_falls_back (env : Environ) (key s : String) (fb : ℤ)
    (h : os.LookupEnv env key = some s) :
    (s = "" → Env.Int env key fb = fb) ∧
    (validSignedInt s = none → Env.Int env key fb = fb) ∧
    (∀ v : ℤ, validSignedInt s = some v → Env.Int env key fb = v) := by
  have hs : Env.Str env key "" = s := by simp only [Env.Str, h]
  have hI : Env.Int env key fb =
      if s = "" then fb else if (strconv.Atoi s).2 ≠ none then fb else (strconv.Atoi s).1 := by
    unfold Env.Int
    rw [hs]
  refine ⟨?_, ?_, ?_⟩
  · intro he
    rw [hI, if_pos he]
  · intro hn
    rw [hI, if_pos ((atoi_spec s).2 hn)]
    split_ifs <;> rfl
  · intro v hv
    have hne : s ≠ "" := by
      intro he
      subst he
      have hnone : validSignedInt "" = none := by decide
      rw [hnone] at hv
      exact Option.noConfusion hv
    have hA := (atoi_spec s).1 v hv
    have hn : ¬ ((strconv.Atoi s).2 ≠ none) := by
      rw [hA]
      exact fun e => e rfl
    rw [hI, if_neg hne, if_neg hn, hA]

/-- C6 at the raw values `abc` (not an integer: the fallback) and `-12` (the
integer it denotes). -/
theorem int_parses_or_falls_back_witness :
    Env.Int [("K", "abc")] "K" 7 = 7 ∧ Env.Int [("K", "-12")] "K" 7 = -12 :=
  ⟨(int_parses_or_falls_back [("K", "abc")] "K" "abc" 7 (by decide)).2.1 (by decide),
   (int_parses_or_falls_back [("K", "-12")] "K" "-12" 7 (by decide)).2.2 (-12) (by decide)⟩

/-! ## Formatting integers -/

theorem digitChar_toNat (d : ℕ) (h : d < 10) : (strconv.digitChar d).toNat = 48 + d :=
  toNat_ofNat_of_lt (48 + d) (by omega)

theorem digitChar_isDecimalDigit (d : ℕ) (h : d < 10) :
    isDecimalDigit (strconv.digitChar d) = true := by
  simp only [isDecimalDigit, decide_eq_true_eq, digitChar_toNat d h]
  omega

theorem decimalValue_append (xs ys : List Char) (n : ℕ) :
    decimalValue n (xs ++ ys) = decimalValue (decimalValue n xs) ys := by
  induction xs generalizing n with
  | nil => rw [List.nil_append, decimalValue_nil]
  | cons x xs ih => rw [List.cons_append, decimalValue_cons, decimalValue_cons, ih]

/-- With enough fuel for the digits of `u`, `formatDecimal` writes in front of
`acc` the numeral of `u` without leading zeros. -/
theorem formatDecimal_spec (fuel u : ℕ) (acc : List Char) (h : u < 10 ^ (fuel + 1)) :
    ∃ ds : List Char, strconv.formatDecimal (fuel + 1) u acc = ds ++ acc ∧
      isNumeral ds = true ∧ decimalValue 0 ds = u ∧ noLeadingZero ds = true := by
  induction fuel generalizing u acc with
  | zero =>
    have hu : u < 10 := by simpa using h
    refine ⟨[strconv.digitChar u], ?_, ?_, ?_, ?_⟩
    · rw [strconv.formatDecimal, if_pos hu]; rfl
    · rw [isNumeral_iff]
      exact ⟨by simp, by simp [digitChar_isDecimalDigit u hu]⟩
    · rw [decimalValue_cons, decimalValue_nil, digitChar_toNat u hu]
      omega
    · simp only [noLeadingZero, decide_eq_true_eq, List.head?_cons]
      by_cases h0 : u = 0
      · right; subst h0; rfl
      · left
        intro e
        have e2 := congrArg Char.toNat (Option.some.inj e)
        rw [digitChar_toNat u hu] at e2
        have e3 : ('0' : Char).toNat = 48 := rfl
        omega
  | succ fuel ih =>
    by_cases hu : u < 10
    · refine ⟨[strconv.digitChar u], ?_, ?_, ?_, ?_⟩
      · rw [strconv.formatDecimal, if_pos hu]; rfl
      · rw [isNumeral_iff]
        exact ⟨by simp, by simp [digitChar_isDecimalDigit u hu]⟩
      · rw [decimalValue_cons, decimalValue_nil, digitChar_toNat u hu]
        omega
      · simp only [noLeadingZero, decide_eq_true_eq, List.head?_cons]
        by_cases h0 : u = 0
        · right; subst h0; rfl
        · left
          intro e
          have e2 := congrArg Char.toNat (Option.some.inj e)
          rw [digitChar_toNat u hu] at e2
          have e3 : ('0' : Char).toNat = 48 := rfl
          omega
    · have hdiv : u / 10 < 10 ^ (fuel + 1) := by
        rw [pow_succ] at h
        exact Nat.div_lt_of_lt_mul (by rw [Nat.mul_comm]; exact h)
      have hm : u % 10 < 10 := Nat.mod_lt u (by norm_num)
      obtain ⟨ds, hds, hnum, hval, hlz⟩ := ih (u / 10) (strconv.digitChar (u % 10) :: acc) hdiv
      rw [isNumeral_iff] at hnum
      refine ⟨ds ++ [strconv.digitChar (u % 10)], ?_, ?_, ?_, ?_⟩
      · rw [strconv.formatDecimal, if_neg hu, hds]
        simp
      · rw [isNumeral_iff]
        refine ⟨by simp, ?_⟩
        rw [List.all_append, hnum.2]
        simp [digitChar_isDecimalDigit (u % 10) hm]
      · rw [decimalValue_append, hval, decimalValue_cons, decimalValue_nil,
          digitChar_toNat (u % 10) hm]
        omega
      · simp only [noLeadingZero, decide_eq_true_eq] at hlz ⊢
        left
        rcases hlz with hh | hh
        · cases ds with
          | nil => exact absurd rfl hnum.1
          | cons d ds => simpa using hh
        · rw [hh, decimalValue_cons, decimalValue_nil] at hval
          have e3 : ('0' : Char).toNat = 48 := rfl
          omega

theorem itoa_magnitude (n : ℤ) (h : inIntRange n = true) :
    (if n < 0 then wrapUint64 (-(wrapUint64 n : ℤ)) else wrapUint64 n) = n.natAbs := by
  simp only [inIntRange, decide_eq_true_eq] at h
  unfold wrapUint64
  by_cases hn : n < 0
  · rw [if_pos hn]
    have h1 : n % 2 ^ 64 = n + 2 ^ 64 := by
      rw [← Int.add_emod_self]
      exact Int.emod_eq_of_lt (by omega) (by omega)
    rw [h1]
    have h2 : (((n + 2 ^ 64).toNat : ℕ) : ℤ) = n + 2 ^ 64 := Int.toNat_of_nonneg (by omega)
    rw [h2]
    have h3 : (-(n + 2 ^ 64)) % 2 ^ 64 = -n := by
      rw [← Int.add_emod_self]
      have : -(n + 2 ^ 64) + 2 ^ 64 = -n := by ring
      rw [this]
      exact Int.emod_eq_of_lt (by omega) (by omega)
    rw [h3]
    omega
  · rw [if_neg hn]
    have h1 : n % 2 ^ 64 = n := Int.emod_eq_of_lt (by omega) (by omega)
    rw [h1]
    omega

/-- The text `Itoa` returns for an `int`: the numeral of the magnitude without
leading zeros, behind a `-` for a negative number. -/
theorem itoa_data (n : ℤ) (h : inIntRange n = true) :
    ∃ ds : List Char, isNumeral ds = true ∧ decimalValue 0 ds = n.natAbs ∧
      noLeadingZero ds = true ∧ (strconv.Itoa n).data = if n < 0 then '-' :: ds else ds := by
  have hm := itoa_magnitude n h
  simp only [inIntRange, decide_eq_true_eq] at h
  have hlt : n.natAbs < 10 ^ (19 + 1) := by
    have : n.natAbs ≤ 2 ^ 63 := by omega
    have h2 : (2 : ℕ) ^ 63 < 10 ^ (19 + 1) := by norm_num
    omega
  obtain ⟨ds, hds, hnum, hval, hlz⟩ := formatDecimal_spec 19 n.natAbs [] hlt
  rw [List.append_nil] at hds
  refine ⟨ds, hnum, hval, hlz, ?_⟩
  unfold strconv.Itoa
  simp only [hm]
  rw [hds]

theorem digit_ne_sign (c : Char) (h : isDecimalDigit c = true) : c ≠ '-' ∧ c ≠ '+' := by
  constructor
  · intro e; subst e; exact absurd h (by decide)
  · intro e; subst e; exact absurd h (by decide)

/-- The text `Itoa` returns for an `int` is a valid base-10 signed integer that
denotes it. -/
theorem itoa_valid (n : ℤ) (h : inIntRange n = true) :
    validSignedInt (strconv.Itoa n) = some n := by
  obtain ⟨ds, hnum, hval, hlz, hdata⟩ := itoa_data n h
  unfold validSignedInt
  rw [hdata]
  by_cases hn : n < 0
  · rw [if_pos hn]
    have hd : denotedInteger ('-' :: ds) = some n := by
      rw [denotedInteger, if_pos rfl, if_pos hnum, hval]
      congr 1
      omega
    rw [hd]
    simp only [h, if_true]
  · rw [if_neg hn]
    have hn2 := (isNumeral_iff ds).mp hnum
    cases ds with
    | nil => exact absurd rfl hn2.1
    | cons d rest =>
      have hdig : isDecimalDigit d = true := by
        have := hn2.2
        rw [List.all_cons, Bool.and_eq_true] at this
        exact this.1
      have hs := digit_ne_sign d hdig
      have hd : denotedInteger (d :: rest) = some n := by
        rw [denotedInteger, if_neg hs.1, if_neg hs.2, if_pos hnum, hval]
        congr 1
        omega
      rw [hd]
      simp only [h, if_true]

/-- The text `Itoa` returns for an `int` is its base-10 decimal text. -/
theorem itoa_isDecimalTextOf (n : ℤ) (h : inIntRange n = true) :
    isDecimalTextOf n (strconv.Itoa n) = true := by
  obtain ⟨ds, hnum, hval, hlz, hdata⟩ := itoa_data n h
  unfold isDecimalTextOf
  rw [hdata]
  by_cases hn : n < 0
  · rw [if_pos hn, if_pos hn]
    simp [hnum, hval, hlz]
  · rw [if_neg hn, if_neg hn]
    simp [hnum, hval, hlz]

/-- The text `Itoa` returns holds digits and `-` only. -/
theorem itoa_chars (n : ℤ) (h : inIntRange n = true) (c : Char)
    (hc : c ∈ (strconv.Itoa n).data) : c = '-' ∨ isDecimalDigit c = true := by
  obtain ⟨ds, hnum, hval, hlz, hdata⟩ := itoa_data n h
  have hn2 := (isNumeral_iff ds).mp hnum
  have hall := List.all_eq_true.mp hn2.2
  rw [hdata] at hc
  by_cases hn : n < 0
  · rw [if_pos hn, List.mem_cons] at hc
    rcases hc with e | e
    · left; exact e
    · right; exact hall c e
  · rw [if_neg hn] at hc
    right; exact hall c hc

theorem itoa_no_quote_no_nul (n : ℤ) (h : inIntRange n = true) :
    '"' ∉ (strconv.Itoa n).data ∧ Char.ofNat 0 ∉ (strconv.Itoa n).data := by
  constructor
  · intro hc
    rcases itoa_chars n h _ hc with e | e
    · exact absurd e (by decide)
    · exact absurd e (by decide)
  · intro hc
    rcases itoa_chars n h _ hc with e | e
    · exact absurd e (by decide)
    · exact absurd e (by decide)

/-! ## Typed round trips -/

/-- C9 as stated fails: the key `A=B` is non-empty and free of double quotes,
yet `SetInt` returns the `EINVAL` of `os.Setenv`, and a following `Int` of the
key returns the fallback; so it is with a NUL byte in the key. -/
theorem setInt_roundtrip_counterexample :
    ("A=B" ≠ "" ∧ '"' ∉ "A=B".data ∧
      (Env.SetInt [] "A=B" 8080).2 = some (Env.Error.SyscallError "setenv" syscall.Errno.EINVAL) ∧
      Env.Int (Env.SetInt [] "A=B" 8080).1 "A=B" 0 = 0) ∧
    ("A\x00" ≠ "" ∧ '"' ∉ "A\x00".data ∧
      (Env.SetInt [] "A\x00" 8080).2 = some (Env.Error.SyscallError "setenv" syscall.Errno.EINVAL)) := by
  decide

/-- C9, amended: for every non-empty key without a double quote, `=` or NUL
and every integer `n` of the `int` range, `SetInt(key, n)` returns no error and
stores the base-10 decimal text of `n` (no leading zeros, a leading `-` for a
negative number); a following `Int(key, fb)` returns `n` for every fallback,
and an `Int` of a different, absent key returns its fallback. -/
theorem setInt_then_int (env : Environ) (key : String) (n : ℤ)
    (hk : key ≠ "") (hq : '"' ∉ key.data) (he : '=' ∉ key.data) (hz : Char.ofNat 0 ∉ key.data)
    (hn : inIntRange n = true) :
    (Env.SetInt env key n).2 = none ∧
    (∃ text : String, os.LookupEnv (Env.SetInt env key n).1 key = some text ∧
      isDecimalTextOf n text = true) ∧
    (∀ fb : ℤ, Env.Int (Env.SetInt env key n).1 key fb = n) ∧
    (∀ (other : String) (fb : ℤ), other ≠ key → os.LookupEnv env other = none →
      Env.Int (Env.SetInt env key n).1 other fb = fb) := by
  have hv := itoa_no_quote_no_nul n hn
  have hset : Env.SetInt env key n = (env.assign key (strconv.Itoa n), none) := by
    unfold Env.SetInt
    exact setStr_success env key (strconv.Itoa n) hk hq hv.1 he hz hv.2
  have hlook := lookupEnv_assign_same env key (strconv.Itoa n) hk
  rw [hset]
  refine ⟨rfl, ⟨strconv.Itoa n, hlook, itoa_isDecimalTextOf n hn⟩, ?_, ?_⟩
  · intro fb
    have hs : Env.Str (env.assign key (strconv.Itoa n)) key "" = strconv.Itoa n := by
      simp only [Env.Str, hlook]
    have hA := (atoi_spec (strconv.Itoa n)).1 n (itoa_valid n hn)
    have hne : strconv.Itoa n ≠ "" := by
      intro e
      have hval := itoa_valid n hn
      rw [e] at hval
      have hnone : validSignedInt "" = none := by decide
      rw [hnone] at hval
      exact Option.noConfusion hval
    have hnn : ¬ ((strconv.Atoi (strconv.Itoa n)).2 ≠ none) := by
      rw [hA]
      exact fun e => e rfl
    have hI : Env.Int (env.assign key (strconv.Itoa n)) key fb =
        if strconv.Itoa n = "" then fb
        else if (strconv.Atoi (strconv.Itoa n)).2 ≠ none then fb
        else (strconv.Atoi (strconv.Itoa n)).1 := by
      unfold Env.Int
      rw [hs]
    rw [hI, if_neg hne, if_neg hnn, hA]
  · intro other fb hne habs
    have hl : os.LookupEnv (env.assign key (strconv.Itoa n)) other = none := by
      rw [lookupEnv_assign_other env key (strconv.Itoa n) other hne]
      exact habs
    have hs : Env.Str (env.assign key (strconv.Itoa n)) other "" = "" := by
      simp only [Env.Str, hl]
    unfold Env.Int
    simp only [hs, if_true]

/-- C9, amended, at the smallest `int`, on the key `PORT`. -/
theorem setInt_then_int_witness :
    (Env.SetInt [] "PORT" (-9223372036854775808)).2 = none ∧
    (∃ text : String,
      os.LookupEnv (Env.SetInt [] "PORT" (-9223372036854775808)).1 "PORT" = some text ∧
      isDecimalTextOf (-9223372036854775808) text = true) ∧
    (∀ fb : ℤ, Env.Int (Env.SetInt [] "PORT" (-9223372036854775808)).1 "PORT" fb
      = -9223372036854775808) ∧
    (∀ (other : String) (fb : ℤ), other ≠ "PORT" → os.LookupEnv [] other = none →
      Env.Int (Env.SetInt [] "PORT" (-9223372036854775808)).1 other fb = fb) :=
  setInt_then_int [] "PORT" (-9223372036854775808)
    (by decide) (by decide) (by decide) (by decide) (by decide)

/-- C10 as stated fails: the key `A=B` is non-empty and free of double quotes,
yet `SetBool` returns the `EINVAL` of `os.Setenv`, and a following `Bool` of
the key returns the fallback `false`, not the value `true`; so it is with a
NUL byte in the key. -/
theorem setBool_roundtrip_counterexample :
    ("A=B" ≠ "" ∧ '"' ∉ "A=B".data ∧
      (Env.SetBool [] "A=B" true).2 = some (Env.Error.SyscallError "setenv" syscall.Errno.EINVAL) ∧
      Env.Bool id (Env.SetBool [] "A=B" true).1 "A=B" false = false) ∧
    ("A\x00" ≠ "" ∧ '"' ∉ "A\x00".data ∧
      (Env.SetBool [] "A\x00" true).2 = some (Env.Error.SyscallError "setenv" syscall.Errno.EINVAL)) := by
  decide

/-- C10, amended: for every non-empty key without a double quote, `=` or NUL
and every boolean `b`, `SetBool(key, b)` returns no error and stores exactly
`"true"` (for `b = true`) or `"false"` (for `b = false`), and a following
`Bool(key, fb)` returns `b` for every fallback. -/
theorem setBool_then_bool (caseTable : Char → Char) (env : Environ) (key : String) (b : Bool)
    (hk : key ≠ "") (hq : '"' ∉ key.data) (he : '=' ∉ key.data) (hz : Char.ofNat 0 ∉ key.data) :
    (Env.SetBool env key b).2 = none ∧
    os.LookupEnv (Env.SetBool env key b).1 key = some (if b = true then "true" else "false") ∧
    (∀ fb : Bool, Env.Bool caseTable (Env.SetBool env key b).1 key fb = b) := by
  cases b with
  | true =>
    have hset : Env.SetBool env key true = (env.assign key "true", none) := by
      unfold Env.SetBool
      exact setStr_success env key "true" hk hq (by decide) he hz (by decide)
    have hlook := lookupEnv_assign_same env key "true" hk
    have hlow : strings.ToLower caseTable "true" = "true" :=
      (toLower_eq_iff caseTable "true" "true" (by decide)).1 (by decide)
    rw [hset]
    refine ⟨rfl, hlook, ?_⟩
    intro fb
    have hs : Env.Str (env.assign key "true") key "" = "true" := by
      simp only [Env.Str, hlook]
    have hne : ¬ ("true" = "") := by decide
    unfold Env.Bool
    simp only [hs, if_neg hne, hlow, if_true]
  | false =>
    have hset : Env.SetBool env key false = (env.assign key "false", none) := by
      unfold Env.SetBool
      exact setStr_success env key "false" hk hq (by decide) he hz (by decide)
    have hlook := lookupEnv_assign_same env key "false" hk
    have hlow : strings.ToLower caseTable "false" = "false" :=
      (toLower_eq_iff caseTable "false" "false" (by decide)).1 (by decide)
    rw [hset]
    refine ⟨rfl, hlook, ?_⟩
    intro fb
    have hs : Env.Str (env.assign key "false") key "" = "false" := by
      simp only [Env.Str, hlook]
    have hne : ¬ ("false" = "") := by decide
    have hft : ¬ ("false" = "true") := by decide
    unfold Env.Bool
    simp only [hs, if_neg hne, hlow, if_neg hft, if_true]

/-- C10, amended, at `false` on a key that was set to `true`. -/
theorem setBool_then_bool_witness :
    (Env.SetBool [("KEY_1", "true")] "KEY_1" false).2 = none ∧
    os.LookupEnv (Env.SetBool [("KEY_1", "true")] "KEY_1" false).1 "KEY_1"
      = some (if false = true then "true" else "false") ∧
    (∀ fb : Bool, Env.Bool id (Env.SetBool [("KEY_1", "true")] "KEY_1" false).1 "KEY_1" fb = false) :=
  setBool_then_bool id [("KEY_1", "true")] "KEY_1" false
    (by decide) (by decide) (by decide) (by decide)

/-! ## Error values, frame and range -/

/-- What `SetStr` can return as its error. -/
theorem setStr_error_cases (env : Environ) (key value : String) :
    (Env.SetStr env key value).2 = none ∨
    (Env.SetStr env key value).2 = some Env.Error.ErrInvalidKey ∨
    (Env.SetStr env key value).2 = some Env.Error.ErrInvalidValue ∨
    ((Env.SetStr env key value).2 = some (Env.Error.SyscallError "setenv" syscall.Errno.EINVAL) ∧
      ('=' ∈ key.data ∨ Char.ofNat 0 ∈ key.data ∨ Char.ofNat 0 ∈ value.data)) := by
  rw [setStr_cases]
  by_cases h1 : '"' ∈ key.data
  · rw [if_pos h1]; right; left; rfl
  · rw [if_neg h1]
    by_cases h2 : '"' ∈ value.data
    · rw [if_pos h2]; right; right; left; rfl
    · rw [if_neg h2]
      by_cases h3 : key = ""
      · rw [if_pos h3]; right; left; rfl
      · rw [if_neg h3]
        rcases setenv_cases env key value with ⟨e, hc⟩ | ⟨e, _⟩
        · right; right; right
          rw [e]
          refine ⟨rfl, ?_⟩
          rcases hc with hc | hc | hc | hc
          · exact absurd hc h3
          · left; exact hc
          · right; left; exact hc
          · right; right; exact hc
        · left; rw [e]

/-- C12 as stated fails: `SetStr("A=B", "v")` returns the `*os.SyscallError` of
`os.Setenv`, which is neither `ErrInvalidKey` nor `ErrInvalidValue`. -/
theorem setters_two_errors_counterexample :
    (Env.SetStr [] "A=B" "v").2 = some (Env.Error.SyscallError "setenv" syscall.Errno.EINVAL) ∧
    (Env.SetStr [] "A=B" "v").2 ≠ none ∧
    (Env.SetStr [] "A=B" "v").2 ≠ some Env.Error.ErrInvalidKey ∧
    (Env.SetStr [] "A=B" "v").2 ≠ some Env.Error.ErrInvalidValue := by
  decide

/-- C12, amended: for every setter and every input the result is success or
one of three errors: `ErrInvalidKey`, `ErrInvalidValue`, or the error
`setenv: invalid argument` of `os.Setenv`, the last one only for a key holding
`=` or NUL or a formatted value holding NUL (the text `SetBool` formats never
holds one). -/
theorem setters_error_values :
    (∀ (env : Environ) (key value : String),
      (Env.SetStr env key value).2 = none ∨
      (Env.SetStr env key value).2 = some Env.Error.ErrInvalidKey ∨
      (Env.SetStr env key value).2 = some Env.Error.ErrInvalidValue ∨
      ((Env.SetStr env key value).2 = some (Env.Error.SyscallError "setenv" syscall.Errno.EINVAL) ∧
        ('=' ∈ key.data ∨ Char.ofNat 0 ∈ key.data ∨ Char.ofNat 0 ∈ value.data))) ∧
    (∀ (env : Environ) (key : String) (value : ℤ),
      (Env.SetInt env key value).2 = none ∨
      (Env.SetInt env key value).2 = some Env.Error.ErrInvalidKey ∨
      (Env.SetInt env key value).2 = some Env.Error.ErrInvalidValue ∨
      ((Env.SetInt env key value).2 = some (Env.Error.SyscallError "setenv" syscall.Errno.EINVAL) ∧
        ('=' ∈ key.data ∨ Char.ofNat 0 ∈ key.data ∨
          Char.ofNat 0 ∈ (strconv.Itoa value).data))) ∧
    (∀ (env : Environ) (key : String) (value : Bool),
      (Env.SetBool env key value).2 = none ∨
      (Env.SetBool env key value).2 = some Env.Error.ErrInvalidKey ∨
      (Env.SetBool env key value).2 = some Env.Error.ErrInvalidValue ∨
      ((Env.SetBool env key value).2 = some (Env.Error.SyscallError "setenv" syscall.Errno.EINVAL) ∧
        ('=' ∈ key.data ∨ Char.ofNat 0 ∈ key.data))) ∧
    (∀ (F : Type) (formatFloat : F → ℤ → String) (env : Environ) (key : String) (value : F)
        (prec : List ℤ),
      (Env.SetFloat32 formatFloat env key value prec).2 = none ∨
      (Env.SetFloat32 formatFloat env key value prec).2 = some Env.Error.ErrInvalidKey ∨
      (Env.SetFloat32 formatFloat env key value prec).2 = some Env.Error.ErrInvalidValue ∨
      ((Env.SetFloat32 formatFloat env key value prec).2
          = some (Env.Error.SyscallError "setenv" syscall.Errno.EINVAL) ∧
        ('=' ∈ key.data ∨ Char.ofNat 0 ∈ key.data ∨
          Char.ofNat 0 ∈
            (formatFloat value (if prec.length > 1 then prec.headD 0 else 2)).data))) := by
  refine ⟨?_, ?_, ?_, ?_⟩
  · intro env key value
    exact setStr_error_cases env key value
  · intro env key value
    exact setStr_error_cases env key (strconv.Itoa value)
  · intro env key value
    cases value with
    | true =>
      rcases setStr_error_cases env key "true" with h | h | h | ⟨h, hc⟩
      · left; exact h
      · right; left; exact h
      · right; right; left; exact h
      · right; right; right
        refine ⟨h, ?_⟩
        rcases hc with hc | hc | hc
        · left; exact hc
        · right; exact hc
        · exact absurd hc (by decide)
    | false =>
      rcases setStr_error_cases env key "false" with h | h | h | ⟨h, hc⟩
      · left; exact h
      · right; left; exact h
      · right; right; left; exact h
      · right; right; right
        refine ⟨h, ?_⟩
        rcases hc with hc | hc | hc
        · left; exact hc
        · right; exact hc
        · exact absurd hc (by decide)
  · intro F formatFloat env key value prec
    exact setStr_error_cases env key
      (formatFloat value (if prec.length > 1 then prec.headD 0 else 2))

/-- When the value holds no double quote, `SetStr` never returns
`ErrInvalidValue`, and returns `ErrInvalidKey` exactly for a key that is empty
or holds a double quote. -/
theorem setStr_unquoted_value (env : Environ) (key value : String) (hv : '"' ∉ value.data) :
    (Env.SetStr env key value).2 ≠ some Env.Error.ErrInvalidValue ∧
    ((Env.SetStr env key value).2 = some Env.Error.ErrInvalidKey ↔
      (key = "" ∨ '"' ∈ key.data)) := by
  have hkv : some Env.Error.ErrInvalidKey ≠ some Env.Error.ErrInvalidValue := by decide
  have hsv : some (Env.Error.SyscallError "setenv" syscall.Errno.EINVAL)
      ≠ some Env.Error.ErrInvalidValue := by decide
  have hsk : some (Env.Error.SyscallError "setenv" syscall.Errno.EINVAL)
      ≠ some Env.Error.ErrInvalidKey := by decide
  have hnv : (none : Option Env.Error) ≠ some Env.Error.ErrInvalidValue := by decide
  have hnk : (none : Option Env.Error) ≠ some Env.Error.ErrInvalidKey := by decide
  rw [setStr_cases, if_neg hv]
  by_cases h1 : '"' ∈ key.data
  · rw [if_pos h1]
    exact ⟨hkv, fun _ => Or.inr h1, fun _ => rfl⟩
  · rw [if_neg h1]
    by_cases h3 : key = ""
    · rw [if_pos h3]
      exact ⟨hkv, fun _ => Or.inl h3, fun _ => rfl⟩
    · rw [if_neg h3]
      rcases setenv_cases env key value with ⟨e, _⟩ | ⟨e, _⟩
      · rw [e]
        refine ⟨hsv, fun h => absurd h hsk, fun h => ?_⟩
        rcases h with h | h
        · exact absurd h h3
        · exact absurd h h1
      · rw [e]
        refine ⟨hnv, fun h => absurd h hnk, fun h => ?_⟩
        rcases h with h | h
        · exact absurd h h3
        · exact absurd h h1

/-- C15: the text `SetInt` and `SetBool` format holds no double quote, so they
never return `ErrInvalidValue`, and they return `ErrInvalidKey` exactly when
the key is empty or holds a double quote. -/
theorem setInt_setBool_key_error_only (env : Environ) (key : String) (n : ℤ) (b : Bool)
    (hn : inIntRange n = true) :
    ('"' ∉ (strconv.Itoa n).data ∧
      (Env.SetInt env key n).2 ≠ some Env.Error.ErrInvalidValue ∧
      ((Env.SetInt env key n).2 = some Env.Error.ErrInvalidKey ↔ (key = "" ∨ '"' ∈ key.data))) ∧
    ((Env.SetBool env key b).2 ≠ some Env.Error.ErrInvalidValue ∧
      ((Env.SetBool env key b).2 = some Env.Error.ErrInvalidKey ↔ (key = "" ∨ '"' ∈ key.data))) := by
  constructor
  · have hq := (itoa_no_quote_no_nul n hn).1
    exact ⟨hq, setStr_unquoted_value env key (strconv.Itoa n) hq⟩
  · cases b with
    | true => exact setStr_unquoted_value env key "true" (by decide)
    | false => exact setStr_unquoted_value env key "false" (by decide)

/-- C15 at the key `KEY_1"` and at the key `A=B`, which `os.Setenv` rejects
with an error that is not `ErrInvalidKey`. -/
theorem setInt_setBool_key_error_only_witness :
    (Env.SetInt [] "KEY_1\"" (-5)).2 = some Env.Error.ErrInvalidKey ∧
    (Env.SetBool [] "A=B" true).2 ≠ some Env.Error.ErrInvalidKey :=
  ⟨(setInt_setBool_key_error_only [] "KEY_1\"" (-5) true (by decide)).1.2.2.mpr
      (Or.inr (by decide)),
   fun h => absurd ((setInt_setBool_key_error_only [] "A=B" 0 true (by decide)).2.2.mp h)
      (by decide)⟩

/-- C16: a successful `SetStr(key, value)` leaves the presence and the raw
value of every other key as they were, so `Str` of another key returns the same
result before and after. -/
theorem setStr_frame (env : Environ) (key value other : String)
    (hs : (Env.SetStr env key value).2 = none) (hne : other ≠ key) :
    os.LookupEnv (Env.SetStr env key value).1 other = os.LookupEnv env other ∧
    ∀ fb : String, Env.Str (Env.SetStr env key value).1 other fb = Env.Str env other fb := by
  have hset : Env.SetStr env key value = (env.assign key value, none) := by
    rw [setStr_cases] at hs ⊢
    split_ifs at hs ⊢
    rcases setenv_cases env key value with ⟨e, _⟩ | ⟨e, _⟩
    · rw [e] at hs; exact Option.noConfusion hs
    · exact e
  rw [hset]
  have hl := lookupEnv_assign_other env key value other hne
  refine ⟨hl, ?_⟩
  intro fb
  simp only [Env.Str, hl]

/-- C16 on an environment where the other key is set and the key is new. -/
theorem setStr_frame_witness :
    os.LookupEnv (Env.SetStr [("A", "1")] "B" "2").1 "A" = os.LookupEnv [("A", "1")] "A" ∧
    ∀ fb : String, Env.Str (Env.SetStr [("A", "1")] "B" "2").1 "A" fb = Env.Str [("A", "1")] "A" fb :=
  setStr_frame [("A", "1")] "B" "2" "A" (by decide) (by decide)

/-- `Int` in terms of the valid base-10 signed integers. -/
theorem int_of_raw (env : Environ) (key s : String) (fb : ℤ)
    (h : os.LookupEnv env key = some s) :
    Env.Int env key fb = (validSignedInt s).getD fb := by
  have hs : Env.Str env key "" = s := by simp only [Env.Str, h]
  have hI : Env.Int env key fb =
      if s = "" then fb else if (strconv.Atoi s).2 ≠ none then fb else (strconv.Atoi s).1 := by
    unfold Env.Int
    rw [hs]
  cases hv : validSignedInt s with
  | none =>
    rw [hI, if_pos ((atoi_spec s).2 hv)]
    split_ifs <;> rfl
  | some v =>
    have hne : s ≠ "" := by
      intro he
      subst he
      have hnone : validSignedInt "" = none := by decide
      rw [hnone] at hv
      exact Option.noConfusion hv
    have hA := (atoi_spec s).1 v hv
    have hn : ¬ ((strconv.Atoi s).2 ≠ none) := by
      rw [hA]
      exact fun e => e rfl
    rw [hI, if_neg hne, if_neg hn, hA]
    rfl

/-- C17: with the key present and the raw value a base-10 numeral (an optional
sign `+` or `-` and one or more decimal digits, leading zeros allowed) that
denotes `v`, `Int(key, fb)` returns `fb` when `v` is below `-2^63` or above
`2^63 - 1`, and returns `v` itself when `v` is inside that range. -/
theorem int_range (env : Environ) (key s : String) (v fb : ℤ)
    (h : os.LookupEnv env key = some s) (hd : denotedInteger s.data = some v) :
    ((v < -(2 ^ 63) ∨ 2 ^ 63 - 1 < v) → Env.Int env key fb = fb) ∧
    ((-(2 ^ 63) ≤ v ∧ v ≤ 2 ^ 63 - 1) → Env.Int env key fb = v) := by
  rw [int_of_raw env key s fb h]
  unfold validSignedInt
  rw [hd]
  constructor
  · intro hr
    have hf : inIntRange v = false := by
      simp only [inIntRange, decide_eq_false_iff_not]
      omega
    simp only [hf]
    rfl
  · intro hr
    have ht : inIntRange v = true := by
      simp only [inIntRange, decide_eq_true_eq]
      exact hr
    simp only [ht, if_true]
    rfl

/-- C17 at `2^63` and `-2^63 - 1` (the fallback, though `ParseInt` carries the
clamped values `2^63 - 1` and `-2^63`), and at `+007` and `-2^63` (the exact
value). -/
theorem int_range_witness :
    Env.Int [("K", "9223372036854775808")] "K" 5 = 5 ∧
    Env.Int [("K", "-9223372036854775809")] "K" 5 = 5 ∧
    Env.Int [("K", "+007")] "K" 5 = 7 ∧
    Env.Int [("K", "-9223372036854775808")] "K" 5 = -9223372036854775808 :=
  ⟨(int_range [("K", "9223372036854775808")] "K" "9223372036854775808" 9223372036854775808 5
      (by decide) (by decide)).1 (Or.inr (by decide)),
   (int_range [("K", "-9223372036854775809")] "K" "-9223372036854775809" (-9223372036854775809) 5
      (by decide) (by decide)).1 (Or.inl (by decide)),
   (int_range [("K", "+007")] "K" "+007" 7 5 (by decide) (by decide)).2 (by decide),
   (int_range [("K", "-9223372036854775808")] "K" "-9223372036854775808" (-9223372036854775808) 5
      (by decide) (by decide)).2 (by decide)⟩

/-! ## Rounding to nearest, halfway cases to even -/

theorem roundHalfEven_cases (a d : ℕ) :
    strconv.roundHalfEven a d = a / d ∨ strconv.roundHalfEven a d = a / d + 1 := by
  unfold strconv.roundHalfEven
  split_ifs <;> simp

/-- The rounded quotient is within half a unit of `a / d`. -/
theorem roundHalfEven_half (a d : ℕ) (hd : 0 < d) :
    2 * |(a : ℤ) - (strconv.roundHalfEven a d : ℕ) * (d : ℤ)| ≤ (d : ℤ) := by
  have hdm : d * (a / d) + a % d = a := Nat.div_add_mod a d
  have hr : a % d < d := Nat.mod_lt a hd
  have hz : ((d * (a / d) : ℕ) : ℤ) = (a / d : ℕ) * (d : ℤ) := by push_cast; ring
  have hdm2 : ((a / d : ℕ) : ℤ) * (d : ℤ) + ((a % d : ℕ) : ℤ) = (a : ℤ) := by
    rw [← hz]; exact_mod_cast hdm
  unfold strconv.roundHalfEven
  split_ifs with h1 h2 h3
  · rw [abs_of_nonneg (by omega)]
    omega
  · have e : (((a / d + 1 : ℕ) : ℤ)) * (d : ℤ) = (a / d : ℕ) * (d : ℤ) + d := by push_cast; ring
    rw [e, abs_of_nonpos (by omega)]
    omega
  · rw [abs_of_nonneg (by omega)]
    omega
  · have e : (((a / d + 1 : ℕ) : ℤ)) * (d : ℤ) = (a / d : ℕ) * (d : ℤ) + d := by push_cast; ring
    rw [e, abs_of_nonpos (by omega)]
    omega

/-- No multiple of `d` is nearer to `a` than the rounded quotient times `d`. -/
theorem roundHalfEven_nearest (a d j : ℕ) (hd : 0 < d) :
    |(a : ℤ) - (strconv.roundHalfEven a d : ℕ) * (d : ℤ)| ≤ |(a : ℤ) - (j : ℤ) * (d : ℤ)| := by
  have hh := roundHalfEven_half a d hd
  have hdm : d * (a / d) + a % d = a := Nat.div_add_mod a d
  have hr : a % d < d := Nat.mod_lt a hd
  have hz : ((d * (a / d) : ℕ) : ℤ) = (a / d : ℕ) * (d : ℤ) := by push_cast; ring
  have hdm2 : ((a / d : ℕ) : ℤ) * (d : ℤ) + ((a % d : ℕ) : ℤ) = (a : ℤ) := by
    rw [← hz]; exact_mod_cast hdm
  rcases roundHalfEven_cases a d with hm | hm
  · rw [hm] at hh ⊢
    rw [abs_of_nonneg (by omega)] at hh ⊢
    rcases Nat.lt_or_ge (a / d) j with hj | hj
    · have hmul : ((a / d : ℕ) : ℤ) * (d : ℤ) + d ≤ (j : ℤ) * (d : ℤ) := by
        have : (a / d + 1) * d ≤ j * d := Nat.mul_le_mul_right d hj
        have e : (((a / d + 1) * d : ℕ) : ℤ) = (a / d : ℕ) * (d : ℤ) + d := by push_cast; ring
        rw [← e]; exact_mod_cast this
      rw [abs_of_nonpos (by omega)]
      omega
    · have hmul : (j : ℤ) * (d : ℤ) ≤ ((a / d : ℕ) : ℤ) * (d : ℤ) := by
        have : j * d ≤ (a / d) * d := Nat.mul_le_mul_right d hj
        exact_mod_cast this
      rw [abs_of_nonneg (by omega)]
      omega
  · rw [hm] at hh ⊢
    have e : (((a / d + 1 : ℕ) : ℤ)) * (d : ℤ) = (a / d : ℕ) * (d : ℤ) + d := by push_cast; ring
    rw [e] at hh ⊢
    rw [abs_of_nonpos (by omega)] at hh ⊢
    rcases Nat.lt_or_ge (a / d) j with hj | hj
    · have hmul : ((a / d : ℕ) : ℤ) * (d : ℤ) + d ≤ (j : ℤ) * (d : ℤ) := by
        have : (a / d + 1) * d ≤ j * d := Nat.mul_le_mul_right d hj
        have e : (((a / d + 1) * d : ℕ) : ℤ) = (a / d : ℕ) * (d : ℤ) + d := by push_cast; ring
        rw [← e]; exact_mod_cast this
      rw [abs_of_nonpos (by omega)]
      omega
    · have hmul : (j : ℤ) * (d : ℤ) ≤ ((a / d : ℕ) : ℤ) * (d : ℤ) := by
        have : j * d ≤ (a / d) * d := Nat.mul_le_mul_right d hj
        exact_mod_cast this
      rw [abs_of_nonneg (by omega)]
      omega

/-- Among the numbers `M * 2^t` with `M < 2^24`, none is nearer to `a / d` than
the quotient rounded on the grid of step `2^s`, when `2^s` is the step that
brings the quotient into `[2^23, 2^24)` (or `s = 0`). -/
theorem grid_nearest (a d s M t : ℕ) (hd : 0 < d)
    (hlow : 0 < s → 2 ^ 23 * (d * 2 ^ s) ≤ a) (hM : M < 2 ^ 24) :
    |(a : ℤ) - ((strconv.roundHalfEven a (d * 2 ^ s) * 2 ^ s : ℕ) : ℤ) * (d : ℤ)|
      ≤ |(a : ℤ) - ((M * 2 ^ t : ℕ) : ℤ) * (d : ℤ)| := by
  have hD : 0 < d * 2 ^ s := Nat.mul_pos hd (pow_pos (by norm_num) s)
  have e1 : ((strconv.roundHalfEven a (d * 2 ^ s) * 2 ^ s : ℕ) : ℤ) * (d : ℤ)
      = (strconv.roundHalfEven a (d * 2 ^ s) : ℕ) * ((d * 2 ^ s : ℕ) : ℤ) := by
    push_cast; ring
  rw [e1]
  rcases Nat.lt_or_ge t s with hts | hts
  · -- a coarser grid than that of `M * 2^t`: the number lies below `2^23 * 2^s`
    have hs : 0 < s := by omega
    have hl := hlow hs
    have h1 : M * 2 ^ t ≤ 2 ^ 23 * 2 ^ s := by
      have hp : 2 ^ (t + 1) ≤ 2 ^ s := Nat.pow_le_pow_right (by norm_num) hts
      have hq : M * 2 ^ t ≤ 2 ^ 24 * 2 ^ t := Nat.mul_le_mul_right _ (le_of_lt hM)
      have hr : 2 ^ 24 * 2 ^ t = 2 ^ 23 * 2 ^ (t + 1) := by ring
      have hs2 : 2 ^ 23 * 2 ^ (t + 1) ≤ 2 ^ 23 * 2 ^ s := Nat.mul_le_mul_left _ hp
      omega
    have h2 : M * 2 ^ t * d ≤ a := by
      have : M * 2 ^ t * d ≤ 2 ^ 23 * 2 ^ s * d := Nat.mul_le_mul_right _ h1
      have e : 2 ^ 23 * 2 ^ s * d = 2 ^ 23 * (d * 2 ^ s) := by ring
      omega
    have h3 := roundHalfEven_nearest a (d * 2 ^ s) (2 ^ 23) hD
    have h4 : ((M * 2 ^ t : ℕ) : ℤ) * (d : ℤ) ≤ (a : ℤ) := by exact_mod_cast h2
    have h5 : ((2 ^ 23 : ℕ) : ℤ) * ((d * 2 ^ s : ℕ) : ℤ) ≤ (a : ℤ) := by exact_mod_cast hl
    have h6 : ((M * 2 ^ t : ℕ) : ℤ) * (d : ℤ) ≤ ((2 ^ 23 : ℕ) : ℤ) * ((d * 2 ^ s : ℕ) : ℤ) := by
      have : M * 2 ^ t * d ≤ 2 ^ 23 * (d * 2 ^ s) := by
        have h7 : M * 2 ^ t * d ≤ 2 ^ 23 * 2 ^ s * d := Nat.mul_le_mul_right _ h1
        have e : 2 ^ 23 * 2 ^ s * d = 2 ^ 23 * (d * 2 ^ s) := by ring
        omega
      exact_mod_cast this
    have h7 : |(a : ℤ) - ((2 ^ 23 : ℕ) : ℤ) * ((d * 2 ^ s : ℕ) : ℤ)|
        = (a : ℤ) - ((2 ^ 23 : ℕ) : ℤ) * ((d * 2 ^ s : ℕ) : ℤ) :=
      abs_of_nonneg (sub_nonneg.mpr h5)
    have h8 : |(a : ℤ) - ((M * 2 ^ t : ℕ) : ℤ) * (d : ℤ)|
        = (a : ℤ) - ((M * 2 ^ t : ℕ) : ℤ) * (d : ℤ) :=
      abs_of_nonneg (sub_nonneg.mpr h4)
    rw [h7] at h3
    rw [h8]
    linarith
  · -- a finer grid: the number is a multiple of `2^s`
    have e2 : ((M * 2 ^ t : ℕ) : ℤ) * (d : ℤ)
        = ((M * 2 ^ (t - s) : ℕ) : ℤ) * ((d * 2 ^ s : ℕ) : ℤ) := by
      have hp : 2 ^ t = 2 ^ (t - s) * 2 ^ s := by
        rw [← pow_add]; congr 1; omega
      have : M * 2 ^ t * d = M * 2 ^ (t - s) * (d * 2 ^ s) := by
        rw [hp]; ring
      exact_mod_cast this
    rw [e2]
    exact roundHalfEven_nearest a (d * 2 ^ s) (M * 2 ^ (t - s)) hD

theorem binaryShift_spec (a d fuel s0 : ℕ) :
    s0 ≤ strconv.binaryShift a d fuel s0 ∧
    strconv.binaryShift a d fuel s0 ≤ s0 + fuel ∧
    (strconv.binaryShift a d fuel s0 < s0 + fuel →
      a / (d * 2 ^ strconv.binaryShift a d fuel s0) < 2 ^ 24) ∧
    (∀ t : ℕ, s0 ≤ t → t < strconv.binaryShift a d fuel s0 → 2 ^ 24 ≤ a / (d * 2 ^ t)) := by
  induction fuel generalizing s0 with
  | zero =>
    refine ⟨le_refl _, le_refl _, ?_, ?_⟩
    · intro h; exact absurd h (lt_irrefl _)
    · intro t h1 h2
      have : strconv.binaryShift a d 0 s0 = s0 := rfl
      omega
  | succ fuel ih =>
    by_cases hc : a / (d * 2 ^ s0) < 2 ^ 24
    · have e : strconv.binaryShift a d (fuel + 1) s0 = s0 := by
        rw [strconv.binaryShift, if_pos hc]
      rw [e]
      refine ⟨le_refl _, by omega, fun _ => hc, ?_⟩
      intro t h1 h2
      omega
    · have e : strconv.binaryShift a d (fuel + 1) s0 = strconv.binaryShift a d fuel (s0 + 1) := by
        rw [strconv.binaryShift, if_neg hc]
      rw [e]
      obtain ⟨i1, i2, i3, i4⟩ := ih (s0 + 1)
      refine ⟨by omega, by omega, ?_, ?_⟩
      · intro h
        exact i3 (by omega)
      · intro t h1 h2
        by_cases ht : t = s0
        · subst ht
          omega
        · exact i4 t (by omega) h2

theorem roundHalfEven_ge_floor (a d b : ℕ) (hd : 0 < d) (h : b * d ≤ a) :
    b ≤ strconv.roundHalfEven a d := by
  have h1 : b ≤ a / d := (Nat.le_div_iff_mul_le hd).mpr h
  rcases roundHalfEven_cases a d with e | e <;> omega

theorem roundHalfEven_le_ceil (a d b : ℕ) (hd : 0 < d) (h : a < b * d) :
    strconv.roundHalfEven a d ≤ b := by
  have h1 : a / d < b := (Nat.div_lt_iff_lt_mul hd).mpr h
  rcases roundHalfEven_cases a d with e | e <;> omega

/-- Below the halfway point over `b` the quotient rounds to `b` at most. -/
theorem roundHalfEven_le_of_below_half (a d b : ℕ) (hd : 0 < d) (h : 2 * a < (2 * b + 1) * d) :
    strconv.roundHalfEven a d ≤ b := by
  have hdm : d * (a / d) + a % d = a := Nat.div_add_mod a d
  have hr : a % d < d := Nat.mod_lt a hd
  have hq : a / d ≤ b := by
    by_contra hc
    have h2 : (b + 1) * d ≤ (a / d) * d := Nat.mul_le_mul_right d (by omega)
    have h3 : (a / d) * d = d * (a / d) := Nat.mul_comm _ _
    have h4 : (2 * b + 1) * d + d = 2 * ((b + 1) * d) := by ring
    omega
  by_cases hb : a / d = b
  · have h5 : 2 * (a % d) < d := by
      have h3 : d * (a / d) = b * d := by rw [hb, Nat.mul_comm]
      have h4 : (2 * b + 1) * d = 2 * (b * d) + d := by ring
      omega
    unfold strconv.roundHalfEven
    rw [if_pos h5]
    omega
  · rcases roundHalfEven_cases a d with e | e <;> omega

/-- From the halfway point over an odd `b` on, the quotient rounds above `b`. -/
theorem roundHalfEven_gt_of_half_odd (a d b : ℕ) (hd : 0 < d) (hb : b % 2 = 1)
    (h : (2 * b + 1) * d ≤ 2 * a) : b + 1 ≤ strconv.roundHalfEven a d := by
  have hdm : d * (a / d) + a % d = a := Nat.div_add_mod a d
  have hr : a % d < d := Nat.mod_lt a hd
  have hq : b ≤ a / d := by
    by_contra hc
    have h2 : (a / d + 1) * d ≤ b * d := Nat.mul_le_mul_right d (by omega)
    have h3 : (a / d + 1) * d = d * (a / d) + d := by ring
    have h4 : (2 * b + 1) * d = 2 * (b * d) + d := by ring
    omega
  by_cases hbq : a / d = b
  · have h3 : d * (a / d) = b * d := by rw [hbq, Nat.mul_comm]
    have h4 : (2 * b + 1) * d = 2 * (b * d) + d := by ring
    have h5 : ¬ 2 * (a % d) < d := by omega
    unfold strconv.roundHalfEven
    rw [if_neg h5]
    by_cases h6 : d < 2 * (a % d)
    · rw [if_pos h6]; omega
    · rw [if_neg h6]
      have h7 : ¬ (a / d % 2 = 0) := by omega
      rw [if_neg h7]; omega
  · rcases roundHalfEven_cases a d with e | e <;> omega

theorem ofParts_parts (neg : Bool) (e mt : ℕ) (he : e < 256) :
    (float32.ofParts neg e mt).exp = e ∧ (float32.ofParts neg e mt).neg = neg ∧
    (float32.ofParts neg e mt).mant = mt % 2 ^ 23 := by
  have h1 : e % 2 ^ 8 = e := Nat.mod_eq_of_lt (by omega)
  have h2 : mt % 2 ^ 23 < 2 ^ 23 := Nat.mod_lt _ (by norm_num)
  cases neg with
  | false =>
    simp only [float32.ofParts, float32.exp, float32.neg, float32.mant, h1,
      Bool.false_eq_true, if_false]
    refine ⟨by omega, ?_, by omega⟩
    simp only [decide_eq_false_iff_not]
    omega
  | true =>
    simp only [float32.ofParts, float32.exp, float32.neg, float32.mant, h1, if_true]
    refine ⟨by omega, ?_, by omega⟩
    simp only [decide_eq_true_eq]
    omega

/-- The magnitude of a finite `float32` is a 24-bit number times a power of 2. -/
theorem units_form (w : float32) : ∃ M t : ℕ, M < 2 ^ 24 ∧ w.units = M * 2 ^ t := by
  have hm : w.mant < 2 ^ 23 := Nat.mod_lt _ (by norm_num)
  unfold float32.units
  by_cases h : w.exp = 0
  · rw [if_pos h]
    exact ⟨w.mant, 0, by omega, by simp⟩
  · rw [if_neg h]
    exact ⟨2 ^ 23 + w.mant, w.exp - 1, by omega, rfl⟩

theorem floatBits32_unfold (neg : Bool) (n k s m : ℕ)
    (hs : s = strconv.binaryShift (n * 2 ^ 149) (10 ^ k) 254 0)
    (hm : m = strconv.roundHalfEven (n * 2 ^ 149) (10 ^ k * 2 ^ s)) :
    strconv.floatBits32 neg n k =
      if (if m < 2 ^ 23 then 0 else if m < 2 ^ 24 then s + 1 else s + 2) ≥ 255 then
        (float32.ofParts neg 255 0, true)
      else
        (float32.ofParts neg (if m < 2 ^ 23 then 0 else if m < 2 ^ 24 then s + 1 else s + 2)
          (if m < 2 ^ 24 then m else 0), false) := by
  subst hs hm
  rfl

/-- Below the overflow threshold `(2^25 - 1) * 2^103` the rounding gives a
finite `float32` of the given sign, and no finite `float32` is nearer. -/
theorem floatBits32_finite (neg : Bool) (n k : ℕ)
    (h : n * 2 ^ 149 < (2 ^ 25 - 1) * 2 ^ 252 * 10 ^ k) :
    (strconv.floatBits32 neg n k).2 = false ∧
    (strconv.floatBits32 neg n k).1.exp ≠ 255 ∧
    (strconv.floatBits32 neg n k).1.neg = neg ∧
    ∀ M t : ℕ, M < 2 ^ 24 →
      |((n * 2 ^ 149 : ℕ) : ℤ) - (((strconv.floatBits32 neg n k).1.units : ℕ) : ℤ) * ((10 ^ k : ℕ) : ℤ)|
        ≤ |((n * 2 ^ 149 : ℕ) : ℤ) - ((M * 2 ^ t : ℕ) : ℤ) * ((10 ^ k : ℕ) : ℤ)| := by
  obtain ⟨s, hs⟩ : ∃ s, s = strconv.binaryShift (n * 2 ^ 149) (10 ^ k) 254 0 := ⟨_, rfl⟩
  obtain ⟨m, hm⟩ : ∃ m, m = strconv.roundHalfEven (n * 2 ^ 149) (10 ^ k * 2 ^ s) := ⟨_, rfl⟩
  obtain ⟨a, ha⟩ : ∃ a, a = n * 2 ^ 149 := ⟨_, rfl⟩
  obtain ⟨d, hdd⟩ : ∃ d, d = 10 ^ k := ⟨_, rfl⟩
  have hd : 0 < d := by rw [hdd]; exact pow_pos (by norm_num) k
  have hsp := binaryShift_spec a d 254 0
  rw [ha, hdd, ← hs] at hsp
  rw [floatBits32_unfold neg n k s m hs hm]
  rw [← ha, ← hdd] at h hm hsp ⊢
  obtain ⟨_, hs254, hhi, hlo⟩ := hsp
  have hD : 0 < d * 2 ^ s := Nat.mul_pos hd (pow_pos (by norm_num) s)
  -- the quotient on the grid is at least `2^23` when the grid is not the finest
  have hlow : 0 < s → 2 ^ 23 * (d * 2 ^ s) ≤ a := by
    intro hs0
    have h1 := hlo (s - 1) (by omega) (by omega)
    have h2 := (Nat.le_div_iff_mul_le (Nat.mul_pos hd (pow_pos (by norm_num) (s - 1)))).mp h1
    have h3 : 2 ^ s = 2 * 2 ^ (s - 1) := by
      rw [← pow_succ']; congr 1; omega
    have h4 : 2 ^ 23 * (d * 2 ^ s) = 2 ^ 24 * (d * 2 ^ (s - 1)) := by
      rw [h3]; ring
    omega
  have hs253 : s ≤ 253 := by
    by_contra hc
    have h1 := hlo 253 (by omega) (by omega)
    have h2 := (Nat.le_div_iff_mul_le (Nat.mul_pos hd (pow_pos (by norm_num) 253))).mp h1
    have h3 : (2 ^ 25 - 1) * 2 ^ 252 * d ≤ 2 ^ 24 * (d * 2 ^ 253) := by
      have e1 : 2 ^ 24 * (d * 2 ^ 253) = (2 ^ 25 * 2 ^ 252) * d := by ring
      rw [e1]
      exact Nat.mul_le_mul_right d (Nat.mul_le_mul_right _ (by norm_num))
    omega
  have hhigh : a < 2 ^ 24 * (d * 2 ^ s) := by
    have h1 := hhi (by omega)
    exact (Nat.div_lt_iff_lt_mul hD).mp h1
  have hm24 : m ≤ 2 ^ 24 := by
    rw [hm]; exact roundHalfEven_le_ceil a (d * 2 ^ s) (2 ^ 24) hD hhigh
  have hm23 : 0 < s → 2 ^ 23 ≤ m := by
    intro hs0
    rw [hm]; exact roundHalfEven_ge_floor a (d * 2 ^ s) (2 ^ 23) hD (hlow hs0)
  have hm253 : s = 253 → m < 2 ^ 24 := by
    intro e
    have h1 : 2 * a < (2 * (2 ^ 24 - 1) + 1) * (d * 2 ^ s) := by
      rw [e]
      have e1 : (2 * (2 ^ 24 - 1) + 1) * (d * 2 ^ 253) = 2 * ((2 ^ 25 - 1) * 2 ^ 252 * d) := by
        norm_num; ring
      omega
    have h2 := roundHalfEven_le_of_below_half a (d * 2 ^ s) (2 ^ 24 - 1) hD h1
    rw [← hm] at h2
    omega
  have hgrid : ∀ M t : ℕ, M < 2 ^ 24 →
      |((a : ℕ) : ℤ) - ((m * 2 ^ s : ℕ) : ℤ) * ((d : ℕ) : ℤ)|
        ≤ |((a : ℕ) : ℤ) - ((M * 2 ^ t : ℕ) : ℤ) * ((d : ℕ) : ℤ)| := by
    intro M t hM
    rw [hm]
    exact grid_nearest a d s M t hd hlow hM
  by_cases c1 : m < 2 ^ 23
  · have hs0 : s = 0 := by
      by_contra hc
      have := hm23 (by omega)
      omega
    have c2 : m < 2 ^ 24 := by omega
    simp only [c1, c2, if_true]
    have hn : ¬ ((0 : ℕ) ≥ 255) := by omega
    rw [if_neg hn]
    obtain ⟨p1, p2, p3⟩ := ofParts_parts neg 0 m (by omega)
    have hu : (float32.ofParts neg 0 m).units = m * 2 ^ s := by
      unfold float32.units
      rw [p1, if_pos rfl, p3, hs0, Nat.mod_eq_of_lt c1]
      simp
    refine ⟨rfl, by rw [p1]; omega, p2, ?_⟩
    intro M t hM
    rw [hu]
    exact hgrid M t hM
  · by_cases c2 : m < 2 ^ 24
    · simp only [c1, c2, if_true, if_false]
      have hn : ¬ (s + 1 ≥ 255) := by omega
      rw [if_neg hn]
      obtain ⟨p1, p2, p3⟩ := ofParts_parts neg (s + 1) m (by omega)
      have hu : (float32.ofParts neg (s + 1) m).units = m * 2 ^ s := by
        unfold float32.units
        have hne : ¬ (s + 1 = 0) := by omega
        rw [p1, if_neg hne, p3]
        have e1 : m % 2 ^ 23 = m - 2 ^ 23 := by
          rw [Nat.mod_eq_sub_mod (by omega)]
          exact Nat.mod_eq_of_lt (by omega)
        have e2 : 2 ^ 23 + (m - 2 ^ 23) = m := by omega
        rw [e1, e2, Nat.add_sub_cancel]
      refine ⟨rfl, by rw [p1]; omega, p2, ?_⟩
      intro M t hM
      rw [hu]
      exact hgrid M t hM
    · simp only [c1, c2, if_false]
      have hme : m = 2 ^ 24 := by omega
      have hs252 : s ≤ 252 := by
        by_contra hc
        have := hm253 (by omega)
        omega
      have hn : ¬ (s + 2 ≥ 255) := by omega
      rw [if_neg hn]
      obtain ⟨p1, p2, p3⟩ := ofParts_parts neg (s + 2) 0 (by omega)
      have hu : (float32.ofParts neg (s + 2) 0).units = m * 2 ^ s := by
        unfold float32.units
        have hne : ¬ (s + 2 = 0) := by omega
        rw [p1, if_neg hne, p3, hme]
        have e1 : s + 2 - 1 = s + 1 := by omega
        rw [e1, pow_succ]
        norm_num
        ring
      refine ⟨rfl, by rw [p1]; omega, p2, ?_⟩
      intro M t hM
      rw [hu]
      exact hgrid M t hM

/-- From the overflow threshold `(2^25 - 1) * 2^103` on, the rounding overflows
and gives an infinity. -/
theorem floatBits32_overflow (neg : Bool) (n k : ℕ)
    (h : (2 ^ 25 - 1) * 2 ^ 252 * 10 ^ k ≤ n * 2 ^ 149) :
    strconv.floatBits32 neg n k = (float32.ofParts neg 255 0, true) := by
  obtain ⟨s, hs⟩ : ∃ s, s = strconv.binaryShift (n * 2 ^ 149) (10 ^ k) 254 0 := ⟨_, rfl⟩
  obtain ⟨m, hm⟩ : ∃ m, m = strconv.roundHalfEven (n * 2 ^ 149) (10 ^ k * 2 ^ s) := ⟨_, rfl⟩
  obtain ⟨a, ha⟩ : ∃ a, a = n * 2 ^ 149 := ⟨_, rfl⟩
  obtain ⟨d, hdd⟩ : ∃ d, d = 10 ^ k := ⟨_, rfl⟩
  have hd : 0 < d := by rw [hdd]; exact pow_pos (by norm_num) k
  have hsp := binaryShift_spec a d 254 0
  rw [ha, hdd, ← hs] at hsp
  rw [floatBits32_unfold neg n k s m hs hm]
  rw [← ha, ← hdd] at h hm hsp
  obtain ⟨_, hs254, hhi, hlo⟩ := hsp
  have hD : 0 < d * 2 ^ s := Nat.mul_pos hd (pow_pos (by norm_num) s)
  have hs253 : 253 ≤ s := by
    by_contra hc
    have h1 := hhi (by omega)
    have h2 := (Nat.div_lt_iff_lt_mul hD).mp h1
    have hp : 2 ^ s ≤ 2 ^ 252 := Nat.pow_le_pow_right (by norm_num) (by omega)
    have h3 : 2 ^ 24 * (d * 2 ^ s) ≤ (2 ^ 25 - 1) * 2 ^ 252 * d := by
      have e1 : 2 ^ 24 * (d * 2 ^ s) = 2 ^ 24 * 2 ^ s * d := by ring
      rw [e1]
      apply Nat.mul_le_mul_right d
      calc 2 ^ 24 * 2 ^ s ≤ 2 ^ 24 * 2 ^ 252 := Nat.mul_le_mul_left _ hp
        _ ≤ (2 ^ 25 - 1) * 2 ^ 252 := Nat.mul_le_mul_right _ (by norm_num)
    omega
  have hbig : (if m < 2 ^ 23 then 0 else if m < 2 ^ 24 then s + 1 else s + 2) ≥ 255 := by
    by_cases e : s = 253
    · have h1 : (2 * (2 ^ 24 - 1) + 1) * (d * 2 ^ s) ≤ 2 * a := by
        rw [e]
        have e1 : (2 * (2 ^ 24 - 1) + 1) * (d * 2 ^ 253) = 2 * ((2 ^ 25 - 1) * 2 ^ 252 * d) := by
          norm_num; ring
        omega
      have h2 := roundHalfEven_gt_of_half_odd a (d * 2 ^ s) (2 ^ 24 - 1) hD (by norm_num) h1
      rw [← hm] at h2
      have c1 : ¬ m < 2 ^ 23 := by omega
      have c2 : ¬ m < 2 ^ 24 := by omega
      rw [if_neg c1, if_neg c2]
      omega
    · have hs4 : s = 254 := by omega
      have h1 := hlo 253 (by omega) (by omega)
      have h2 := (Nat.le_div_iff_mul_le (Nat.mul_pos hd (pow_pos (by norm_num) 253))).mp h1
      have h3 : 2 ^ 23 * (d * 2 ^ s) ≤ a := by
        rw [hs4]
        have e1 : 2 ^ 23 * (d * 2 ^ 254) = 2 ^ 24 * (d * 2 ^ 253) := by ring
        omega
      have h4 := roundHalfEven_ge_floor a (d * 2 ^ s) (2 ^ 23) hD h3
      rw [← hm] at h4
      have c1 : ¬ m < 2 ^ 23 := by omega
      rw [if_neg c1]
      split_ifs <;> omega
  rw [if_pos hbig]

/-! ## Reading decimal numerals -/

/-- The digit loop of `readFloat` over a run of digits: the mantissa takes the
digits, and the count of digits behind the decimal point, `nd - dp`, grows by
one with each of them. -/
theorem readFloatLoop_digits (ds rest : List Char) (st : strconv.floatDigits)
    (hds : ds.all isDecimalDigit = true) (hinv : st.nd = 0 → st.mantissa = 0) :
    ∃ st' : strconv.floatDigits,
      strconv.readFloatLoop (ds ++ rest) st = strconv.readFloatLoop rest st' ∧
      st'.sawdot = st.sawdot ∧
      st'.sawdigits = (st.sawdigits || !ds.isEmpty) ∧
      st'.mantissa = decimalValue st.mantissa ds ∧
      (st'.nd : ℤ) - st'.dp = (st.nd : ℤ) - st.dp + ds.length ∧
      (st'.nd = 0 → st'.mantissa = 0) := by
  induction ds generalizing st with
  | nil =>
    refine ⟨st, rfl, rfl, by simp, by rw [decimalValue_nil], by simp, hinv⟩
  | cons c ds ih =>
    rw [List.all_cons, Bool.and_eq_true] at hds
    have hc := hds.1
    simp only [isDecimalDigit, decide_eq_true_eq] at hc
    have hdot : ¬ c = '.' := by
      intro e
      rw [e] at hc
      exact absurd hc (by decide)
    by_cases hz : c = '0' ∧ st.nd = 0
    · obtain ⟨st', h1, h2, h3, h4, h5, h6⟩ :=
        ih { st with sawdigits := true, dp := st.dp - 1 } hds.2 hinv
      refine ⟨st', ?_, h2, ?_, ?_, ?_, h6⟩
      · rw [List.cons_append, strconv.readFloatLoop, if_neg hdot, if_pos hc, if_pos hz]
        exact h1
      · rw [h3]; simp
      · rw [h4, decimalValue_cons]
        have e1 : st.mantissa = 0 := hinv hz.2
        have e2 : c.toNat - 48 = 0 := by rw [hz.1]; rfl
        simp only [e1, e2]
      · rw [h5]
        simp only [List.length_cons]
        push_cast
        ring
    · obtain ⟨st', h1, h2, h3, h4, h5, h6⟩ :=
        ih { st with sawdigits := true, nd := st.nd + 1,
                     mantissa := st.mantissa * 10 + (c.toNat - 48) } hds.2
          (fun e => absurd e (Nat.succ_ne_zero _))
      refine ⟨st', ?_, h2, ?_, ?_, ?_, h6⟩
      · rw [List.cons_append, strconv.readFloatLoop, if_neg hdot, if_pos hc, if_neg hz]
        exact h1
      · rw [h3]; simp
      · rw [h4, decimalValue_cons]
      · rw [h5]
        simp only [List.length_cons]
        push_cast
        ring

theorem takeWhile_dropWhile_point (body : List Char) :
    body = body.takeWhile (fun x => decide (x ≠ '.')) ∧
      (body.dropWhile (fun x => decide (x ≠ '.'))).drop 1 = [] ∨
    body = body.takeWhile (fun x => decide (x ≠ '.')) ++
      '.' :: (body.dropWhile (fun x => decide (x ≠ '.'))).drop 1 := by
  induction body with
  | nil => left; simp
  | cons x xs ih =>
    by_cases hx : x = '.'
    · right
      subst hx
      simp [List.takeWhile, List.dropWhile]
    · have e1 : (x :: xs).takeWhile (fun x => decide (x ≠ '.'))
          = x :: xs.takeWhile (fun x => decide (x ≠ '.')) := by
        simp [List.takeWhile, hx]
      have e2 : (x :: xs).dropWhile (fun x => decide (x ≠ '.'))
          = xs.dropWhile (fun x => decide (x ≠ '.')) := by
        simp [List.dropWhile, hx]
      rw [e1, e2]
      rcases ih with ⟨h1, h2⟩ | h1
      · left
        exact ⟨by rw [← h1], h2⟩
      · right
        rw [List.cons_append, ← h1]

/-- What a plain decimal numeral is made of: the body behind the sign is the
integer digits alone or the integer digits, a point and the fraction digits. -/
theorem decimalNumeral_parts (c : Char) (cs : List Char) (neg : Bool) (int frac : List Char)
    (h : decimalNumeral (c :: cs) = some (neg, int, frac)) :
    neg = decide (c = '-') ∧
    int.all isDecimalDigit = true ∧ frac.all isDecimalDigit = true ∧ int ++ frac ≠ [] ∧
    ((if c = '+' ∨ c = '-' then cs else c :: cs) = int ∧ frac = [] ∨
     (if c = '+' ∨ c = '-' then cs else c :: cs) = int ++ '.' :: frac) := by
  simp only [decimalNumeral] at h
  generalize (if c = '+' ∨ c = '-' then cs else c :: cs) = body at h ⊢
  by_cases hc : (body.takeWhile (fun x => decide (x ≠ '.'))).all isDecimalDigit = true ∧
      ((body.dropWhile (fun x => decide (x ≠ '.'))).drop 1).all isDecimalDigit = true ∧
      body.takeWhile (fun x => decide (x ≠ '.')) ++
        (body.dropWhile (fun x => decide (x ≠ '.'))).drop 1 ≠ []
  · rw [if_pos hc] at h
    have hh := Option.some.inj h
    simp only [Prod.mk.injEq] at hh
    obtain ⟨e1, e2, e3⟩ := hh
    have hsplit := takeWhile_dropWhile_point body
    rw [e2, e3] at hc hsplit
    exact ⟨e1.symm, hc.1, hc.2.1, hc.2.2, hsplit⟩
  · rw [if_neg hc] at h
    exact Option.noConfusion h

theorem parseFloat32_of_loop (other : String → float32 × Option strconv.NumError) (s : String)
    (c : Char) (cs : List Char) (st : strconv.floatDigits) (hs : s.data = c :: cs)
    (hl : strconv.readFloatLoop (if c = '+' ∨ c = '-' then cs else c :: cs) ⟨false, false, 0, 0, 0⟩
      = some st)
    (hd : st.sawdigits = true) :
    strconv.ParseFloat32 other s =
      ((strconv.floatBits32 (decide (c = '-')) st.mantissa
          ((st.nd : ℤ) - (if st.sawdot = true then st.dp else (st.nd : ℤ))).toNat).1,
        if (strconv.floatBits32 (decide (c = '-')) st.mantissa
          ((st.nd : ℤ) - (if st.sawdot = true then st.dp else (st.nd : ℤ))).toNat).2 = true
        then some strconv.NumError.ErrRange else none) := by
  unfold strconv.ParseFloat32
  rw [hs]
  simp only [hl]
  have hf : ¬ (st.sawdigits = false) := by rw [hd]; decide
  rw [if_neg hf]

/-- `ParseFloat` on a plain decimal numeral: the digits before and after the
point make the mantissa, the count of digits after the point the decimal
exponent, and the value is rounded by `floatBits`. -/
theorem parseFloat32_numeral (other : String → float32 × Option strconv.NumError) (s : String)
    (neg : Bool) (int frac : List Char) (h : decimalNumeral s.data = some (neg, int, frac)) :
    strconv.ParseFloat32 other s =
      ((strconv.floatBits32 neg (decimalValue 0 (int ++ frac)) frac.length).1,
        if (strconv.floatBits32 neg (decimalValue 0 (int ++ frac)) frac.length).2 = true
        then some strconv.NumError.ErrRange else none) := by
  cases hs : s.data with
  | nil =>
    rw [hs] at h
    exact Option.noConfusion h
  | cons c cs =>
    rw [hs] at h
    obtain ⟨hneg, hint, hfrac, hne, hbody⟩ := decimalNumeral_parts c cs neg int frac h
    rcases hbody with ⟨hb, hf⟩ | hb
    · -- no decimal point
      subst hf
      obtain ⟨st1, l1, d1, g1, m1, k1, i1⟩ :=
        readFloatLoop_digits int [] ⟨false, false, 0, 0, 0⟩ hint (fun _ => rfl)
      dsimp only at d1 g1 m1 k1
      simp only [Bool.false_or] at g1
      rw [List.append_nil] at l1
      have hl : strconv.readFloatLoop (if c = '+' ∨ c = '-' then cs else c :: cs)
          ⟨false, false, 0, 0, 0⟩ = some st1 := by
        rw [hb, l1]; rfl
      have hsd : st1.sawdigits = true := by
        rw [g1]
        cases int with
        | nil => exact absurd rfl hne
        | cons x xs => rfl
      rw [parseFloat32_of_loop other s c cs st1 hs hl hsd, ← hneg, d1]
      simp only [Bool.false_eq_true, if_false, sub_self, Int.toNat_zero, List.append_nil,
        List.length_nil, m1]
    · -- a decimal point
      obtain ⟨st1, l1, d1, g1, m1, k1, i1⟩ :=
        readFloatLoop_digits int ('.' :: frac) ⟨false, false, 0, 0, 0⟩ hint (fun _ => rfl)
      dsimp only at d1 g1 m1 k1
      simp only [Bool.false_or] at g1
      have hdot : strconv.readFloatLoop ('.' :: frac) st1
          = strconv.readFloatLoop frac { st1 with sawdot := true, dp := st1.nd } := by
        have hsd : ¬ (st1.sawdot = true) := by rw [d1]; decide
        rw [strconv.readFloatLoop, if_pos rfl, if_neg hsd]
      obtain ⟨st2, l2, d2, g2, m2, k2, i2⟩ :=
        readFloatLoop_digits frac [] { st1 with sawdot := true, dp := st1.nd } hfrac i1
      dsimp only at d2 g2 m2 k2
      rw [List.append_nil] at l2
      have hl : strconv.readFloatLoop (if c = '+' ∨ c = '-' then cs else c :: cs)
          ⟨false, false, 0, 0, 0⟩ = some st2 := by
        rw [hb, l1, hdot, l2]; rfl
      have hsd : st2.sawdigits = true := by
        rw [g2]
        simp only [g1]
        cases int with
        | nil =>
          cases frac with
          | nil => exact absurd rfl hne
          | cons x xs => rfl
        | cons x xs => rfl
      have hm : st2.mantissa = decimalValue 0 (int ++ frac) := by
        rw [m2, decimalValue_append]
        simp only [m1]
      have hk : ((st2.nd : ℤ) - st2.dp).toNat = frac.length := by
        rw [k2]
        simp
      rw [parseFloat32_of_loop other s c cs st2 hs hl hsd, ← hneg, d2]
      simp only [if_true, hk, hm]

/-- On a plain decimal numeral `ParseFloat` does not depend on the rest of its
grammar. -/
theorem parseFloat32_plain (other other' : String → float32 × Option strconv.NumError)
    (s : String) (h : (decimalNumeral s.data).isSome = true) :
    strconv.ParseFloat32 other s = strconv.ParseFloat32 other' s := by
  cases hn : decimalNumeral s.data with
  | none =>
    rw [hn] at h
    exact Bool.noConfusion h
  | some r =>
    obtain ⟨neg, int, frac⟩ := r
    rw [parseFloat32_numeral other s neg int frac hn, parseFloat32_numeral other' s neg int frac hn]

/-- `Float32` in terms of the parser, for a key that is present. -/
theorem float32_of_raw {F : Type} (parseFloat32 : String → F × Option strconv.NumError)
    (env : Environ) (key s : String) (fb : F) (h : os.LookupEnv env key = some s)
    (hne : s ≠ "") :
    Env.Float32 parseFloat32 env key fb =
      if (parseFloat32 s).2 ≠ none then fb else (parseFloat32 s).1 := by
  have hs : Env.Str env key "" = s := by simp only [Env.Str, h]
  unfold Env.Float32
  simp only [hs, if_neg hne]

theorem decimalNumeral_ne_empty (s : String) (h : (decimalNumeral s.data).isSome = true) :
    s ≠ "" := by
  intro e
  subst e
  exact absurd h (by decide)

/-- The distance between `N / d` and `U / 2^149`, over the common denominator. -/
theorem rat_dist (N d U : ℕ) (hd : 0 < d) :
    |(N : ℚ) / (d : ℚ) - (U : ℚ) / 2 ^ 149|
      = ((|((N * 2 ^ 149 : ℕ) : ℤ) - ((U : ℕ) : ℤ) * ((d : ℕ) : ℤ)| : ℤ) : ℚ)
          / ((d : ℚ) * 2 ^ 149) := by
  have hd' : (0 : ℚ) < (d : ℚ) := by exact_mod_cast hd
  have hp : (0 : ℚ) < (d : ℚ) * 2 ^ 149 := by positivity
  have e : (N : ℚ) / (d : ℚ) - (U : ℚ) / 2 ^ 149
      = ((((N * 2 ^ 149 : ℕ) : ℤ) - ((U : ℕ) : ℤ) * ((d : ℕ) : ℤ) : ℤ) : ℚ)
          / ((d : ℚ) * 2 ^ 149) := by
    push_cast
    field_simp
    ring
  rw [e, abs_div, abs_of_pos hp, Int.cast_abs]

/-- Opposite signs only move two magnitudes further apart. -/
theorem abs_sub_le_signed (b c : Bool) (x y : ℚ) (hx : 0 ≤ x) (hy : 0 ≤ y) :
    |x - y| ≤ |(if b = true then -1 else 1) * x - (if c = true then -1 else 1) * y| := by
  have hsum : |x - y| ≤ |x + y| := abs_le_abs (by linarith) (by linarith)
  cases b <;> cases c <;> simp only [Bool.false_eq_true, if_true, if_false]
  · have e : (1 : ℚ) * x - 1 * y = x - y := by ring
    rw [e]
  · have e : (1 : ℚ) * x - -1 * y = x + y := by ring
    rw [e]; exact hsum
  · have e : (-1 : ℚ) * x - 1 * y = -(x + y) := by ring
    rw [e, abs_neg]; exact hsum
  · have e : (-1 : ℚ) * x - -1 * y = -(x - y) := by ring
    rw [e, abs_neg]

theorem abs_signed_eq (b : Bool) (x y : ℚ) :
    |(if b = true then -1 else 1) * x - (if b = true then -1 else 1) * y| = |x - y| := by
  cases b <;> simp only [Bool.false_eq_true, if_true, if_false]
  · have e : (1 : ℚ) * x - 1 * y = x - y := by ring
    rw [e]
  · have e : (-1 : ℚ) * x - -1 * y = -(x - y) := by ring
    rw [e, abs_neg]

/-- Below the overflow threshold, `floatBits` returns the `float32` nearest to
the value of the numeral. -/
theorem floatBits32_isNearest (neg : Bool) (int frac : List Char)
    (h : decimalValue 0 (int ++ frac) * 2 ^ 149 < (2 ^ 25 - 1) * 2 ^ 252 * 10 ^ frac.length) :
    isNearestFloat32 (numeralValue neg int frac)
      (strconv.floatBits32 neg (decimalValue 0 (int ++ frac)) frac.length).1 := by
  obtain ⟨_, hfin, hneg, hgrid⟩ :=
    floatBits32_finite neg (decimalValue 0 (int ++ frac)) frac.length h
  have hd : 0 < 10 ^ frac.length := pow_pos (by norm_num) _
  have hdq : ((10 ^ frac.length : ℕ) : ℚ) = (10 : ℚ) ^ frac.length := by push_cast; rfl
  refine ⟨hfin, ?_⟩
  intro w hw
  obtain ⟨M, t, hM, hu⟩ := units_form w
  have hv : |numeralValue neg int frac
      - (strconv.floatBits32 neg (decimalValue 0 (int ++ frac)) frac.length).1.toRat|
      = |((decimalValue 0 (int ++ frac) : ℕ) : ℚ) / ((10 ^ frac.length : ℕ) : ℚ)
          - (((strconv.floatBits32 neg (decimalValue 0 (int ++ frac)) frac.length).1.units : ℕ) : ℚ)
            / 2 ^ 149| := by
    unfold numeralValue float32.toRat
    rw [hneg, hdq]
    exact abs_signed_eq neg _ _
  have hwd : |((decimalValue 0 (int ++ frac) : ℕ) : ℚ) / ((10 ^ frac.length : ℕ) : ℚ)
          - ((w.units : ℕ) : ℚ) / 2 ^ 149|
      ≤ |numeralValue neg int frac - w.toRat| := by
    unfold numeralValue float32.toRat
    rw [hdq]
    exact abs_sub_le_signed neg w.neg _ _ (by positivity) (by positivity)
  refine le_trans ?_ hwd
  rw [hv, rat_dist _ _ _ hd, rat_dist _ _ _ hd]
  have hp : (0 : ℚ) < ((10 ^ frac.length : ℕ) : ℚ) * 2 ^ 149 := by positivity
  apply div_le_div_of_nonneg_right _ (le_of_lt hp)
  have hg := hgrid M t hM
  rw [← hu] at hg
  exact_mod_cast hg

theorem abs_numeralValue (neg : Bool) (int frac : List Char) :
    |numeralValue neg int frac| = (decimalValue 0 (int ++ frac) : ℚ) / 10 ^ frac.length := by
  have hx : (0 : ℚ) ≤ (decimalValue 0 (int ++ frac) : ℚ) / 10 ^ frac.length := by positivity
  unfold numeralValue
  cases neg <;> simp only [Bool.false_eq_true, if_true, if_false]
  · rw [one_mul, abs_of_nonneg hx]
  · rw [neg_one_mul, abs_neg, abs_of_nonneg hx]

/-- The overflow threshold on the value of a numeral, in whole numbers. -/
theorem threshold_iff (N k : ℕ) :
    (N : ℚ) / 10 ^ k < (2 ^ 25 - 1) * 2 ^ 103 ↔
      N * 2 ^ 149 < (2 ^ 25 - 1) * 2 ^ 252 * 10 ^ k := by
  have hp : (0 : ℚ) < 10 ^ k := by positivity
  rw [div_lt_iff₀ hp]
  have e1 : ((2 : ℚ) ^ 25 - 1) * 2 ^ 103 * 10 ^ k = ((33554431 * 2 ^ 103 * 10 ^ k : ℕ) : ℚ) := by
    push_cast; norm_num
  have e2 : (2 ^ 25 - 1) * 2 ^ 252 * 10 ^ k = (33554431 * 2 ^ 103 * 10 ^ k) * 2 ^ 149 := by
    have : (2 : ℕ) ^ 252 = 2 ^ 103 * 2 ^ 149 := by rw [← pow_add]
    rw [this]
    norm_num
    ring
  rw [e1, e2, Nat.cast_lt]
  exact (Nat.mul_lt_mul_right (pow_pos (by norm_num) 149)).symm

/-- `Float32` on a raw value that `ParseFloat` reads as a plain decimal numeral
with the given result. -/
theorem float32_of_plain (other : String → float32 × Option strconv.NumError)
    (env : Environ) (key s : String) (fb v : float32)
    (h : os.LookupEnv env key = some s) (hn : (decimalNumeral s.data).isSome = true)
    (hp : strconv.ParseFloat32 (fun _ => (⟨0⟩, some strconv.NumError.ErrSyntax)) s = (v, none)) :
    Env.Float32 (strconv.ParseFloat32 other) env key fb = v := by
  rw [float32_of_raw (strconv.ParseFloat32 other) env key s fb h (decimalNumeral_ne_empty s hn),
    parseFloat32_plain other (fun _ => (⟨0⟩, some strconv.NumError.ErrSyntax)) s hn, hp]
  have hn2 : ¬ ((none : Option strconv.NumError) ≠ none) := fun e => e rfl
  simp only [if_neg hn2]

/-- C14 as stated fails: the decimal numeral `1` followed by 39 zeros lies
beyond the `float32` range, `ParseFloat` returns `+Inf` with a range error, and
`Float32` falls back, whatever the fallback is. -/
theorem float32_decimal_numeral_counterexample :
    (decimalNumeral "1000000000000000000000000000000000000000".data).isSome = true ∧
    strconv.ParseFloat32 (fun _ => (⟨0⟩, some strconv.NumError.ErrSyntax))
      "1000000000000000000000000000000000000000"
      = (⟨0x7F800000⟩, some strconv.NumError.ErrRange) ∧
    Env.Float32 (strconv.ParseFloat32 (fun _ => (⟨0⟩, some strconv.NumError.ErrSyntax)))
      [("FLOAT_1", "1000000000000000000000000000000000000000")] "FLOAT_1" ⟨0⟩ = ⟨0⟩ ∧
    Env.Float32 (strconv.ParseFloat32 (fun _ => (⟨0⟩, some strconv.NumError.ErrSyntax)))
      [("FLOAT_1", "1000000000000000000000000000000000000000")] "FLOAT_1" ⟨0x3F800000⟩
      = ⟨0x3F800000⟩ := by
  set_option maxRecDepth 100000 in decide

set_option maxRecDepth 1000000 in
set_option exponentiation.threshold 2000 in
/-- C14, amended: with the key present and the raw value a plain decimal
numeral (an optional sign, digits with at most one decimal point), of any
length, `Float32(key, fb)` returns the finite `float32` nearest to the exact
value of the numeral when the magnitude of that value is below
`(2^25 - 1) * 2^103` (half an ulp over the largest `float32`), and returns `fb`
from there on; for the long string of the test it returns `1.5` and for `1` and
`1.` it returns `1.0`. -/
theorem float32_decimal_numeral (other : String → float32 × Option strconv.NumError)
    (env : Environ) (key s : String) (fb : float32) (neg : Bool) (int frac : List Char)
    (h : os.LookupEnv env key = some s) (hn : decimalNumeral s.data = some (neg, int, frac)) :
    (|numeralValue neg int frac| < (2 ^ 25 - 1) * 2 ^ 103 →
      isNearestFloat32 (numeralValue neg int frac)
        (Env.Float32 (strconv.ParseFloat32 other) env key fb)) ∧
    ((2 ^ 25 - 1) * 2 ^ 103 ≤ |numeralValue neg int frac| →
      Env.Float32 (strconv.ParseFloat32 other) env key fb = fb) ∧
    (s = TestFloat.outOfRange → Env.Float32 (strconv.ParseFloat32 other) env key fb = ⟨0x3FC00000⟩) ∧
    (s = "1" → Env.Float32 (strconv.ParseFloat32 other) env key fb = ⟨0x3F800000⟩) ∧
    (s = "1." → Env.Float32 (strconv.ParseFloat32 other) env key fb = ⟨0x3F800000⟩) := by
  have hsome : (decimalNumeral s.data).isSome = true := by rw [hn]; rfl
  have hF := float32_of_raw (strconv.ParseFloat32 other) env key s fb h
    (decimalNumeral_ne_empty s hsome)
  have hP := parseFloat32_numeral other s neg int frac hn
  refine ⟨?_, ?_, ?_, ?_, ?_⟩
  · intro hlt
    rw [abs_numeralValue, threshold_iff] at hlt
    have hfin := (floatBits32_finite neg (decimalValue 0 (int ++ frac)) frac.length hlt).1
    have hnear := floatBits32_isNearest neg int frac hlt
    rw [hfin] at hP
    have hn2 : ¬ ((none : Option strconv.NumError) ≠ none) := fun e => e rfl
    rw [hF, hP]
    simp only [Bool.false_eq_true, if_false, if_neg hn2]
    exact hnear
  · intro hge
    rw [abs_numeralValue] at hge
    have hnlt : ¬ (decimalValue 0 (int ++ frac) * 2 ^ 149
        < (2 ^ 25 - 1) * 2 ^ 252 * 10 ^ frac.length) := by
      rw [← threshold_iff]
      exact not_lt.mpr hge
    have hov := floatBits32_overflow neg (decimalValue 0 (int ++ frac)) frac.length
      (not_lt.mp hnlt)
    rw [hov] at hP
    rw [hF, hP]
    have hn2 : (some strconv.NumError.ErrRange) ≠ none := fun e => Option.noConfusion e
    simp only [if_true, if_pos hn2]
  · intro e
    subst e
    exact float32_of_plain other env key TestFloat.outOfRange fb _ h hsome (by decide)
  · intro e
    subst e
    exact float32_of_plain other env key "1" fb _ h hsome (by decide)
  · intro e
    subst e
    exact float32_of_plain other env key "1." fb _ h hsome (by decide)

set_option maxRecDepth 1000000 in
/-- C14, amended, at the raw value `1.15` of the test and at its long string. -/
theorem float32_decimal_numeral_witness :
    isNearestFloat32 (numeralValue false ['1'] ['1', '5'])
      (Env.Float32 (strconv.ParseFloat32 (fun _ => (⟨0⟩, some strconv.NumError.ErrRange)))
        [("FLOAT_1", "1.15")] "FLOAT_1" ⟨0⟩) ∧
    Env.Float32 (strconv.ParseFloat32 (fun _ => (⟨0⟩, some strconv.NumError.ErrRange)))
      [("FLOAT_1", TestFloat.outOfRange)] "FLOAT_1" ⟨0⟩ = ⟨0x3FC00000⟩ :=
  ⟨(float32_decimal_numeral (fun _ => (⟨0⟩, some strconv.NumError.ErrRange))
      [("FLOAT_1", "1.15")] "FLOAT_1" "1.15" ⟨0⟩ false ['1'] ['1', '5'] (by decide) (by decide)).1
      (by rw [abs_numeralValue]; exact (threshold_iff _ _).mpr (by decide)),
   (float32_decimal_numeral (fun _ => (⟨0⟩, some strconv.NumError.ErrRange))
      [("FLOAT_1", TestFloat.outOfRange)] "FLOAT_1" TestFloat.outOfRange ⟨0⟩ false ['1']
      (TestFloat.outOfRange.data.drop 2) (by decide) (by decide)).2.2.1 rfl⟩

/-! ## Formatting floats -/

theorem units_lt (v : float32) (h : v.exp ≠ 255) : v.units < 2 ^ 24 * 2 ^ 253 := by
  have hm : v.mant < 2 ^ 23 := Nat.mod_lt _ (by norm_num)
  have he : v.exp < 2 ^ 8 := Nat.mod_lt _ (by norm_num)
  unfold float32.units
  by_cases h0 : v.exp = 0
  · rw [if_pos h0]
    calc v.mant < 2 ^ 24 := by omega
      _ ≤ 2 ^ 24 * 2 ^ 253 := Nat.le_mul_of_pos_right _ (pow_pos (by norm_num) _)
  · rw [if_neg h0]
    have hp : 2 ^ (v.exp - 1) ≤ 2 ^ 253 := Nat.pow_le_pow_right (by norm_num) (by omega)
    calc (2 ^ 23 + v.mant) * 2 ^ (v.exp - 1)
        < 2 ^ 24 * 2 ^ (v.exp - 1) :=
          Nat.mul_lt_mul_of_pos_right (by omega) (pow_pos (by norm_num) _)
      _ ≤ 2 ^ 24 * 2 ^ 253 := Nat.mul_le_mul_left _ hp

theorem abs_toRat (v : float32) : |v.toRat| = (v.units : ℚ) / 2 ^ 149 := by
  have hx : (0 : ℚ) ≤ (v.units : ℚ) / 2 ^ 149 := by positivity
  unfold float32.toRat
  cases v.neg <;> simp only [Bool.false_eq_true, if_true, if_false]
  · rw [one_mul, abs_of_nonneg hx]
  · rw [neg_one_mul, abs_neg, abs_of_nonneg hx]

theorem formatFloat32_two_data (shortest : float32 → String) (v : float32) (h : v.exp ≠ 255) :
    (strconv.FormatFloat32 shortest v 2).data =
      (if v.neg = true then ['-'] else []) ++
        strconv.formatDecimal 40 (strconv.roundHalfEven (v.units * 10 ^ 2) (2 ^ 149) / 10 ^ 2) [] ++
        ['.',
          strconv.digitChar (strconv.roundHalfEven (v.units * 10 ^ 2) (2 ^ 149) % 10 ^ 2 / 10 % 10),
          strconv.digitChar (strconv.roundHalfEven (v.units * 10 ^ 2) (2 ^ 149) % 10 ^ 2 % 10)] := by
  have h2 : ¬ ((2 : ℤ) < 0) := by decide
  have h3 : (2 : ℤ).toNat = 2 := rfl
  have h4 : (2 : ℕ) > 0 := by decide
  unfold strconv.FormatFloat32
  rw [if_neg h, if_neg h2]
  simp only [h3, if_pos h4]
  rfl

/-- For a finite `float32`, `FormatFloat` with precision 2 writes the value
rounded to two digits after the decimal point. -/
theorem formatFloat32_two (shortest : float32 → String) (v : float32) (h : v.exp ≠ 255) :
    isRoundedToHundredths v (strconv.FormatFloat32 shortest v 2) := by
  obtain ⟨n, hn⟩ : ∃ n, n = strconv.roundHalfEven (v.units * 10 ^ 2) (2 ^ 149) := ⟨_, rfl⟩
  have hU := units_lt v h
  have hhalf := roundHalfEven_half (v.units * 10 ^ 2) (2 ^ 149) (pow_pos (by norm_num) 149)
  rw [← hn] at hhalf
  -- the integer part has at most 40 digits
  have hnle : n ≤ 2 ^ 128 * 100 := by
    have h1 : v.units * 10 ^ 2 < (2 ^ 128 * 100) * 2 ^ 149 := by
      have e : (2 ^ 128 * 100) * 2 ^ 149 = (2 ^ 24 * 2 ^ 253) * 10 ^ 2 := by
        have : (2 : ℕ) ^ 24 * 2 ^ 253 = 2 ^ 128 * 2 ^ 149 := by rw [← pow_add, ← pow_add]
        rw [this]; ring
      rw [e]
      exact Nat.mul_lt_mul_of_pos_right hU (by norm_num)
    have h2 := roundHalfEven_le_ceil (v.units * 10 ^ 2) (2 ^ 149) (2 ^ 128 * 100)
      (pow_pos (by norm_num) 149) h1
    rw [← hn] at h2
    exact h2
  have hint : n / 10 ^ 2 < 10 ^ (39 + 1) := by
    have h1 : n / 10 ^ 2 ≤ 2 ^ 128 := by
      have : n / 10 ^ 2 ≤ (2 ^ 128 * 100) / 10 ^ 2 := Nat.div_le_div_right hnle
      have e : (2 ^ 128 * 100) / 10 ^ 2 = 2 ^ 128 := by norm_num
      omega
    have h2 : (2 : ℕ) ^ 128 < 10 ^ (39 + 1) := by norm_num
    omega
  obtain ⟨ds, hds, hnum, hval, hlz⟩ := formatDecimal_spec 39 (n / 10 ^ 2) [] hint
  rw [List.append_nil] at hds
  have hf : n % 10 ^ 2 < 100 := Nat.mod_lt _ (by norm_num)
  have ha : n % 10 ^ 2 / 10 % 10 < 10 := Nat.mod_lt _ (by norm_num)
  have hb : n % 10 ^ 2 % 10 < 10 := Nat.mod_lt _ (by norm_num)
  refine ⟨ds, strconv.digitChar (n % 10 ^ 2 / 10 % 10), strconv.digitChar (n % 10 ^ 2 % 10),
    ?_, hnum, hlz, digitChar_isDecimalDigit _ ha, digitChar_isDecimalDigit _ hb, ?_⟩
  · rw [formatFloat32_two_data shortest v h, ← hn, hds]
  · have hdv : decimalValue 0 (ds ++ [strconv.digitChar (n % 10 ^ 2 / 10 % 10),
        strconv.digitChar (n % 10 ^ 2 % 10)]) = n := by
      rw [decimalValue_append, hval, decimalValue_cons, decimalValue_cons, decimalValue_nil,
        digitChar_toNat _ ha, digitChar_toNat _ hb]
      have := Nat.div_add_mod n (10 ^ 2)
      omega
    rw [hdv, abs_toRat]
    have e : (n : ℚ) / 100 - (v.units : ℚ) / 2 ^ 149
        = -((((v.units * 10 ^ 2 : ℕ) : ℤ) - ((n : ℕ) : ℤ) * ((2 ^ 149 : ℕ) : ℤ) : ℤ) : ℚ)
            / (100 * 2 ^ 149) := by
      push_cast
      field_simp
      ring
    have hp : (0 : ℚ) < 100 * 2 ^ 149 := by positivity
    rw [e, abs_div, abs_neg, abs_of_pos hp, ← Int.cast_abs, div_le_div_iff₀ hp (by norm_num)]
    have hq : ((|((v.units * 10 ^ 2 : ℕ) : ℤ) - ((n : ℕ) : ℤ) * ((2 ^ 149 : ℕ) : ℤ)| : ℤ) : ℚ) * 2
        ≤ 2 ^ 149 := by
      have : (2 * |((v.units * 10 ^ 2 : ℕ) : ℤ) - ((n : ℕ) : ℤ) * ((2 ^ 149 : ℕ) : ℤ)| : ℤ)
          ≤ ((2 ^ 149 : ℕ) : ℤ) := hhalf
      have h3 : ((2 * |((v.units * 10 ^ 2 : ℕ) : ℤ) - ((n : ℕ) : ℤ) * ((2 ^ 149 : ℕ) : ℤ)| : ℤ) : ℚ)
          ≤ (((2 ^ 149 : ℕ) : ℤ) : ℚ) := by exact_mod_cast this
      push_cast at h3 ⊢
      linarith
    linarith

/-- A text that is a value rounded to two digits holds `-`, `.` and digits
only. -/
theorem rounded_text_chars (v : float32) (t : String) (h : isRoundedToHundredths v t) :
    '"' ∉ t.data ∧ Char.ofNat 0 ∉ t.data := by
  obtain ⟨int, a, b, hdata, hnum, _, ha, hb, _⟩ := h
  have hall := List.all_eq_true.mp ((isNumeral_iff int).mp hnum).2
  have key : ∀ c : Char, c ∈ t.data → c = '-' ∨ c = '.' ∨ isDecimalDigit c = true := by
    intro c hc
    rw [hdata] at hc
    simp only [List.mem_append, List.mem_cons, List.mem_singleton, List.not_mem_nil,
      or_false] at hc
    rcases hc with (hc | hc) | hc
    · left
      by_cases hn : v.neg = true
      · rw [if_pos hn] at hc
        simpa using hc
      · rw [if_neg hn] at hc
        simp at hc
    · right; right; exact hall c hc
    · rcases hc with e | e | e
      · right; left; exact e
      · right; right; rw [e]; exact ha
      · right; right; rw [e]; exact hb
  constructor
  · intro hc
    rcases key _ hc with e | e | e
    · exact absurd e (by decide)
    · exact absurd e (by decide)
    · exact absurd e (by decide)
  · intro hc
    rcases key _ hc with e | e | e
    · exact absurd e (by decide)
    · exact absurd e (by decide)
    · exact absurd e (by decide)

theorem setFloat32_no_precision {F : Type} (formatFloat : F → ℤ → String) (env : Environ)
    (key : String) (value : F) :
    Env.SetFloat32 formatFloat env key value [] = Env.SetStr env key (formatFloat value 2) := by
  unfold Env.SetFloat32
  simp

/-- C11, where the code departs from the claim: with exactly one precision
argument `p`, `SetFloat32` formats with 2 digits, as it does with none; only
with two or more arguments is the first one used.  At `1.5` with the single
argument `3` it stores `1.50`, not the `1.500` of `FormatFloat` with 3 digits. -/
theorem setFloat32_single_precision_ignored :
    (∀ (F : Type) (formatFloat : F → ℤ → String) (env : Environ) (key : String) (value : F)
        (p : ℤ),
      Env.SetFloat32 formatFloat env key value [p] = Env.SetStr env key (formatFloat value 2)) ∧
    (∀ (F : Type) (formatFloat : F → ℤ → String) (env : Environ) (key : String) (value : F),
      Env.SetFloat32 formatFloat env key value [] = Env.SetStr env key (formatFloat value 2)) ∧
    (∀ (F : Type) (formatFloat : F → ℤ → String) (env : Environ) (key : String) (value : F)
        (p q : ℤ) (rest : List ℤ),
      Env.SetFloat32 formatFloat env key value (p :: q :: rest)
        = Env.SetStr env key (formatFloat value p)) ∧
    Env.SetFloat32 (strconv.FormatFloat32 (fun _ => "")) [] "KEY_1" ⟨0x3FC00000⟩ [3]
      = ([("KEY_1", "1.50")], none) ∧
    strconv.FormatFloat32 (fun _ => "") ⟨0x3FC00000⟩ 3 = "1.500" := by
  refine ⟨?_, ?_, ?_, by decide, by decide⟩
  · intro F formatFloat env key value p
    unfold Env.SetFloat32
    simp
  · intro F formatFloat env key value
    exact setFloat32_no_precision formatFloat env key value
  · intro F formatFloat env key value p q rest
    unfold Env.SetFloat32
    simp

/-- C13 as stated fails: on the key `A=B`, non-empty and free of double quotes,
`SetFloat32` of `1.55` returns the `EINVAL` of `os.Setenv` and stores nothing;
and for a `NaN` the text stored is `NaN`, not a value rounded to two digits. -/
theorem setFloat32_default_counterexample :
    ("A=B" ≠ "" ∧ '"' ∉ "A=B".data ∧
      Env.SetFloat32 (strconv.FormatFloat32 (fun _ => "")) [] "A=B" ⟨0x3FC66666⟩ []
        = ([], some (Env.Error.SyscallError "setenv" syscall.Errno.EINVAL))) ∧
    Env.SetFloat32 (strconv.FormatFloat32 (fun _ => "")) [] "KEY_1" ⟨0x7FC00000⟩ []
      = ([("KEY_1", "NaN")], none) := by
  decide

/-- The texts of `FormatFloat` for a `NaN` and for the infinities. -/
theorem formatFloat32_special (shortest : float32 → String) (v : float32) (prec : ℤ)
    (h : v.exp = 255) :
    strconv.FormatFloat32 shortest v prec =
      if v.mant ≠ 0 then "NaN" else if v.neg = true then "-Inf" else "+Inf" := by
  unfold strconv.FormatFloat32
  rw [if_pos h]

/-- C13, amended: for every non-empty key without a double quote, `=` or NUL
and every `float32` value, `SetFloat32` with the default precision returns no
error; for a finite value it stores the value rounded to two digits after the
decimal point, for a `NaN` it stores `NaN` and for the infinities `+Inf` and
`-Inf`; for the value `1.55` it stores the raw string `1.55`, and a following
`Float32(key, fb)` returns the `float32` `1.55` for every fallback. -/
theorem setFloat32_default_precision (shortest : float32 → String)
    (other : String → float32 × Option strconv.NumError)
    (env : Environ) (key : String) (v : float32)
    (hk : key ≠ "") (hq : '"' ∉ key.data) (he : '=' ∉ key.data) (hz : Char.ofNat 0 ∉ key.data) :
    (Env.SetFloat32 (strconv.FormatFloat32 shortest) env key v []).2 = none ∧
    (v.exp ≠ 255 → ∃ t : String,
      os.LookupEnv (Env.SetFloat32 (strconv.FormatFloat32 shortest) env key v []).1 key = some t ∧
      isRoundedToHundredths v t) ∧
    (v.exp = 255 →
      os.LookupEnv (Env.SetFloat32 (strconv.FormatFloat32 shortest) env key v []).1 key
        = some (if v.mant ≠ 0 then "NaN" else if v.neg = true then "-Inf" else "+Inf")) ∧
    (v = ⟨0x3FC66666⟩ →
      os.LookupEnv (Env.SetFloat32 (strconv.FormatFloat32 shortest) env key v []).1 key
        = some "1.55" ∧
      ∀ fb : float32,
        Env.Float32 (strconv.ParseFloat32 other)
          (Env.SetFloat32 (strconv.FormatFloat32 shortest) env key v []).1 key fb
          = ⟨0x3FC66666⟩) := by
  have hc : '"' ∉ (strconv.FormatFloat32 shortest v 2).data ∧
      Char.ofNat 0 ∉ (strconv.FormatFloat32 shortest v 2).data := by
    by_cases hfin : v.exp = 255
    · rw [formatFloat32_special shortest v 2 hfin]
      split_ifs <;> decide
    · exact rounded_text_chars v _ (formatFloat32_two shortest v hfin)
  have hset : Env.SetFloat32 (strconv.FormatFloat32 shortest) env key v []
      = (env.assign key (strconv.FormatFloat32 shortest v 2), none) := by
    rw [setFloat32_no_precision]
    exact setStr_success env key _ hk hq hc.1 he hz hc.2
  have hlook := lookupEnv_assign_same env key (strconv.FormatFloat32 shortest v 2) hk
  rw [hset]
  refine ⟨rfl, ?_, ?_, ?_⟩
  · intro hfin
    exact ⟨_, hlook, formatFloat32_two shortest v hfin⟩
  · intro hinf
    rw [← formatFloat32_special shortest v 2 hinf]
    exact hlook
  · intro hv
    subst hv
    have hfin : (⟨0x3FC66666⟩ : float32).exp ≠ 255 := by decide
    have htext : strconv.FormatFloat32 shortest ⟨0x3FC66666⟩ 2 = "1.55" := by
      apply String.ext_iff.mpr
      rw [formatFloat32_two_data shortest _ hfin]
      decide
    rw [htext] at hlook ⊢
    refine ⟨hlook, ?_⟩
    intro fb
    exact float32_of_plain other _ key "1.55" fb _ hlook (by decide) (by decide)

/-- C13, amended, at the key `KEY_1`: the value `1.55` of the test, the two
infinities and a `NaN`. -/
theorem setFloat32_default_precision_witness :
    ((Env.SetFloat32 (strconv.FormatFloat32 (fun _ => "")) [] "KEY_1" ⟨0x3FC66666⟩ []).2 = none ∧
      os.LookupEnv (Env.SetFloat32 (strconv.FormatFloat32 (fun _ => "")) [] "KEY_1"
        ⟨0x3FC66666⟩ []).1 "KEY_1" = some "1.55" ∧
      ∀ fb : float32,
        Env.Float32 (strconv.ParseFloat32 (fun _ => (⟨0⟩, some strconv.NumError.ErrSyntax)))
          (Env.SetFloat32 (strconv.FormatFloat32 (fun _ => "")) [] "KEY_1" ⟨0x3FC66666⟩ []).1
          "KEY_1" fb = ⟨0x3FC66666⟩) ∧
    os.LookupEnv (Env.SetFloat32 (strconv.FormatFloat32 (fun _ => "")) [] "KEY_1"
      ⟨0x7F800000⟩ []).1 "KEY_1" = some "+Inf" ∧
    os.LookupEnv (Env.SetFloat32 (strconv.FormatFloat32 (fun _ => "")) [] "KEY_1"
      ⟨0xFF800000⟩ []).1 "KEY_1" = some "-Inf" ∧
    os.LookupEnv (Env.SetFloat32 (strconv.FormatFloat32 (fun _ => "")) [] "KEY_1"
      ⟨0x7F800001⟩ []).1 "KEY_1" = some "NaN" :=
  ⟨⟨(setFloat32_default_precision (fun _ => "") (fun _ => (⟨0⟩, some strconv.NumError.ErrSyntax))
      [] "KEY_1" ⟨0x3FC66666⟩ (by decide) (by decide) (by decide) (by decide)).1,
    (setFloat32_default_precision (fun _ => "") (fun _ => (⟨0⟩, some strconv.NumError.ErrSyntax))
      [] "KEY_1" ⟨0x3FC66666⟩ (by decide) (by decide) (by decide) (by decide)).2.2.2 rfl⟩,
   (setFloat32_default_precision (fun _ => "") (fun _ => (⟨0⟩, some strconv.NumError.ErrSyntax))
      [] "KEY_1" ⟨0x7F800000⟩ (by decide) (by decide) (by decide) (by decide)).2.2.1 (by decide),
   (setFloat32_default_precision (fun _ => "") (fun _ => (⟨0⟩, some strconv.NumError.ErrSyntax))
      [] "KEY_1" ⟨0xFF800000⟩ (by decide) (by decide) (by decide) (by decide)).2.2.1 (by decide),
   (setFloat32_default_precision (fun _ => "") (fun _ => (⟨0⟩, some strconv.NumError.ErrSyntax))
      [] "KEY_1" ⟨0x7F800001⟩ (by decide) (by decide) (by decide) (by decide)).2.2.1 (by decide)⟩
